import Mathlib

/-!
Verification of the generate → validate → self-repair → persist pipeline
of `src/automation/generate.py`.

Texts are modelled as `List Char`.  Python string/regex operations are
compiled to structurally recursive Lean functions on `List Char`; each
definition carries a comment naming the source construct it embeds.
Case mapping is the ASCII mapping (Python `str.lower()` restricted to
ASCII, which is the alphabet all of the patterns and checks live in).
-/

namespace Gen

/-- ASCII lower-casing of one character, the character-wise behaviour of
Python `str.lower()` on ASCII text (shift the range A-Z by 32). -/
def pyLower (c : Char) : Char :=
  if 65 ≤ c.toNat ∧ c.toNat ≤ 90 then Char.ofNat (c.toNat + 32) else c

/-- Lower-casing of a text, Python `text.lower()`. -/
def lowerL (l : List Char) : List Char := l.map pyLower

/-- Python regex `\w` for ASCII text: letters, digits, underscore. -/
def isWordCh (c : Char) : Bool := c.isAlpha || c.isDigit || c = '_'

/-- Python regex `\s` / `str.strip()` whitespace for ASCII text. -/
def isPySpace (c : Char) : Bool :=
  c = ' ' || c = '\t' || c = '\n' || c = '\r' || c = '\x0b' || c = '\x0c'

/-- `listSW pat l` : `l` starts with `pat` (Python `str.startswith` /
anchored literal regex match). -/
def listSW : List Char → List Char → Bool
  | [], _ => true
  | _ :: _, [] => false
  | p :: ps, c :: l => p = c && listSW ps l

/-- Number of positions of `l` (every suffix, the empty one included) at
which `pat` occurs; `occSub pat l ≠ 0` is Python `pat in l`. -/
def occSub (pat : List Char) : List Char → Nat
  | [] => if listSW pat [] then 1 else 0
  | c :: l => (if listSW pat (c :: l) then 1 else 0) + occSub pat l

/-- Python substring test `pat in l`. -/
def hasSub (pat : List Char) : List Char → Bool
  | [] => listSW pat []
  | c :: l => listSW pat (c :: l) || hasSub pat l

/-- Python `str.strip()` (both ends, ASCII whitespace). -/
def pyStrip (l : List Char) : List Char :=
  ((((l.dropWhile isPySpace).reverse).dropWhile isPySpace).reverse)

theorem listSW_nil (l : List Char) : listSW [] l = true := by
  cases l <;> rfl

theorem listSW_length {p l : List Char} (h : listSW p l = true) :
    p.length ≤ l.length := by
  induction p generalizing l with
  | nil => simp
  | cons a ps ih =>
    cases l with
    | nil => simp [listSW] at h
    | cons c l =>
      simp only [listSW, Bool.and_eq_true] at h
      simpa [List.length_cons, Nat.succ_le_succ_iff] using ih h.2

theorem listSW_append_right {p l : List Char} (h : listSW p l = true)
    (m : List Char) : listSW p (l ++ m) = true := by
  induction p generalizing l with
  | nil => exact listSW_nil _
  | cons a ps ih =>
    cases l with
    | nil => simp [listSW] at h
    | cons c l =>
      simp only [listSW, Bool.and_eq_true] at h ⊢
      exact ⟨h.1, ih h.2 ⟩

theorem listSW_append_trunc {p l m : List Char}
    (h : listSW p (l ++ m) = true) (hlen : p.length ≤ l.length) :
    listSW p l = true := by
  induction p generalizing l with
  | nil => exact listSW_nil _
  | cons a ps ih =>
    cases l with
    | nil => simp at hlen
    | cons c l =>
      simp only [List.cons_append, listSW, Bool.and_eq_true] at h ⊢
      exact ⟨h.1, ih h.2 (by simpa [List.length_cons, Nat.succ_le_succ_iff] using hlen)⟩

theorem listSW_self (l : List Char) : listSW l l = true := by
  induction l with
  | nil => rfl
  | cons c l ih => simp [listSW, ih]

/-- An occurrence of a pattern somewhere in `l` gives `hasSub`. -/
theorem hasSub_append_right {p s : List Char} (h : listSW p s = true)
    (a : List Char) : hasSub p (a ++ s) = true := by
  induction a with
  | nil =>
    cases s with
    | nil => simpa [hasSub] using h
    | cons c l => simp [hasSub, h]
  | cons c a ih =>
    simp [hasSub, ih]

theorem hasSub_of_listSW {p l : List Char} (h : listSW p l = true) :
    hasSub p l = true := hasSub_append_right h []

/-- `hasSub` is `occSub ≠ 0`. -/
theorem hasSub_eq_occSub (p l : List Char) :
    hasSub p l = decide (occSub p l ≠ 0) := by
  induction l with
  | nil => by_cases h : listSW p [] <;> simp [hasSub, occSub, h]
  | cons c l ih =>
    by_cases h : listSW p (c :: l)
    · simp [hasSub, occSub, h]
    · simp [hasSub, occSub, h, ih]

theorem occSub_eq_zero_iff (p l : List Char) :
    occSub p l = 0 ↔ hasSub p l = false := by
  rw [hasSub_eq_occSub]
  by_cases h : occSub p l = 0 <;> simp [h]

/-- No occurrence in `a ++ b` means no occurrence in `a`:
a prefix occurrence extends along the appended tail. -/
theorem occSub_zero_left {p a b : List Char}
    (h : occSub p (a ++ b) = 0) : occSub p a = 0 := by
  induction a with
  | nil =>
    simp only [occSub]
    by_cases hw : listSW p []
    · exfalso
      have : listSW p b = true := by
        cases b with
        | nil => exact hw
        | cons c l =>
          cases p with
          | nil => exact listSW_nil _
          | cons q qs => simp [listSW] at hw
      cases b with
      | nil => simp [occSub, hw] at h
      | cons c l => simp [occSub, this] at h
    · simp [hw]
  | cons c a ih =>
    simp only [List.cons_append, occSub] at h
    have h1 := Nat.eq_zero_of_add_eq_zero_right h
    have h2 := Nat.eq_zero_of_add_eq_zero_left h
    simp only [occSub]
    have hsw : listSW p (c :: a) = false := by
      by_cases hw : listSW p (c :: (a ++ b))
      · simp [hw] at h1
      · by_cases hx : listSW p (c :: a)
        · exact absurd (by simpa using listSW_append_right hx b) (by simp [hw])
        · simpa using hx
    simp [hsw, ih h2]

/-- No occurrence in `a ++ b` means no occurrence in `b`:
suffix positions of `b` are suffix positions of the whole. -/
theorem occSub_zero_right {p a b : List Char}
    (h : occSub p (a ++ b) = 0) : occSub p b = 0 := by
  induction a with
  | nil => simpa using h
  | cons c a ih =>
    simp only [List.cons_append, occSub] at h
    exact ih (Nat.eq_zero_of_add_eq_zero_left h)

theorem listSW_false_of_occSub_zero {p a b : List Char}
    (h : occSub p (a ++ b) = 0) : listSW p (a ++ b) = false := by
  by_cases hw : listSW p (a ++ b)
  · exfalso
    cases hab : (a ++ b) with
    | nil => rw [hab] at hw; simp [occSub, hab, hw] at h
    | cons c l => rw [hab] at hw h; simp [occSub, hw] at h
  · simpa using hw

/-- A match that starts inside `x` but is longer than what remains of `x`
reads the straddled character into the pattern's tail. -/
theorem listSW_straddle {ch : Char} {b : List Char} :
    ∀ (x p : List Char), listSW p (x ++ ch :: b) = true →
      x.length < p.length → x ≠ [] → ch ∈ p.drop 1 := by
  intro x
  induction x with
  | nil => intro p _ _ hne; exact absurd rfl hne
  | cons d x ihx =>
    intro p hsw hlt _
    cases p with
    | nil => simp at hlt
    | cons q qs =>
      simp only [List.cons_append, listSW, Bool.and_eq_true] at hsw
      cases x with
      | nil =>
        cases qs with
        | nil => simp at hlt
        | cons r rs =>
          simp only [List.nil_append, listSW, Bool.and_eq_true] at hsw
          have hr : r = ch := by simpa using hsw.2.1
          simp [hr]
      | cons e x' =>
        have hmem := ihx qs (by simpa using hsw.2)
          (by simpa [Nat.succ_lt_succ_iff] using hlt) (by simp)
        simp only [List.drop_one]
        exact List.mem_of_mem_drop hmem

/-- The splitting law for occurrence counting.  If the first character of
the pattern does not recur later in the pattern, then an occurrence can
never straddle a position holding that character, so counting splits at
such a position. -/
theorem occSub_split {s' : List Char} {ch : Char}
    (hch : ch ∉ s') (a b : List Char) :
    occSub (ch :: s') (a ++ ch :: b)
      = occSub (ch :: s') a + occSub (ch :: s') (ch :: b) := by
  induction a with
  | nil =>
    have : listSW (ch :: s') [] = false := rfl
    simp [occSub, this]
  | cons c a ih =>
    have key : listSW (ch :: s') (c :: (a ++ ch :: b)) = listSW (ch :: s') (c :: a) := by
      by_cases hlen : (ch :: s').length ≤ (c :: a).length
      · by_cases hw : listSW (ch :: s') (c :: (a ++ ch :: b))
        · rw [hw]
          exact (listSW_append_trunc (l := c :: a) (m := ch :: b)
            (by simpa using hw) hlen).symm
        · simp only [Bool.not_eq_true] at hw
          rw [hw]
          by_cases hx : listSW (ch :: s') (c :: a)
          · exact absurd (by simpa using listSW_append_right hx (ch :: b)) (by simp [hw])
          · simpa using hx
      · have h2 : listSW (ch :: s') (c :: a) = false := by
          by_cases hx : listSW (ch :: s') (c :: a)
          · exact absurd (listSW_length hx) hlen
          · simpa using hx
        rw [h2]
        by_cases hw : listSW (ch :: s') (c :: (a ++ ch :: b))
        · exfalso
          have hmem := listSW_straddle (c :: a) (ch :: s')
            (by simpa using hw) (by simpa using Nat.lt_of_not_le hlen) (by simp)
          simp only [List.drop_one, List.tail_cons] at hmem
          exact hch hmem
        · simpa using hw
    have expand : occSub (ch :: s') (c :: a ++ ch :: b)
        = (if listSW (ch :: s') (c :: (a ++ ch :: b)) then 1 else 0)
          + occSub (ch :: s') (a ++ ch :: b) := rfl
    have expand2 : occSub (ch :: s') (c :: a)
        = (if listSW (ch :: s') (c :: a) then 1 else 0) + occSub (ch :: s') a := rfl
    rw [expand, expand2, key, ih]
    omega

/-- Peeling characters different from the pattern head. -/
theorem occSub_cons_ne {s' : List Char} {ch c : Char}
    (hne : c ≠ ch) (l : List Char) :
    occSub (ch :: s') (c :: l) = occSub (ch :: s') l := by
  simp [occSub, listSW, hne.symm]

/-- A block without the pattern's head character contributes nothing. -/
theorem occSub_head_free {s' : List Char} {ch : Char} {a : List Char}
    (ha : ch ∉ a) (b : List Char) :
    occSub (ch :: s') (a ++ b) = occSub (ch :: s') b := by
  induction a with
  | nil => simp
  | cons c a ih =>
    have hc : c ≠ ch := fun h => ha (by simp [h])
    have ha' : ch ∉ a := fun h => ha (by simp [h])
    simp only [List.cons_append]
    rw [occSub_cons_ne hc, ih ha']

theorem occSub_zero_of_head_free {s' : List Char} {ch : Char} {l : List Char}
    (hl : ch ∉ l) : occSub (ch :: s') l = 0 := by
  have := @occSub_head_free s' ch l hl []
  simpa [occSub, listSW] using this

theorem char_eq_of_toNat {c d : Char} (h : c.toNat = d.toNat) : c = d :=
  Char.ext (UInt32.toNat.inj h)

theorem char_isLower_iff (c : Char) : c.isLower = true ↔ 97 ≤ c.toNat ∧ c.toNat ≤ 122 := by
  simp [Char.isLower, Bool.and_eq_true, decide_eq_true_eq, UInt32.le_def,
    BitVec.le_def, Char.toNat, UInt32.toNat]

theorem char_isUpper_iff (c : Char) : c.isUpper = true ↔ 65 ≤ c.toNat ∧ c.toNat ≤ 90 := by
  simp [Char.isUpper, Bool.and_eq_true, decide_eq_true_eq, UInt32.le_def,
    BitVec.le_def, Char.toNat, UInt32.toNat]

theorem char_isDigit_iff (c : Char) : c.isDigit = true ↔ 48 ≤ c.toNat ∧ c.toNat ≤ 57 := by
  simp [Char.isDigit, Bool.and_eq_true, decide_eq_true_eq, UInt32.le_def,
    BitVec.le_def, Char.toNat, UInt32.toNat]

theorem toNat_pyLower_upper {c : Char} (h1 : 65 ≤ c.toNat) (h2 : c.toNat ≤ 90) :
    (pyLower c).toNat = c.toNat + 32 := by
  unfold pyLower
  rw [if_pos ⟨h1, h2⟩, Char.ofNat, dif_pos (Or.inl (by omega))]
  simp [Char.ofNatAux, Char.toNat, UInt32.toNat]

theorem pyLower_eq_self {c : Char} (h : ¬(65 ≤ c.toNat ∧ c.toNat ≤ 90)) :
    pyLower c = c := by
  unfold pyLower
  rw [if_neg h]

/-! ## Naming: `slugify` and `first_line_title` (generate.py lines 208-218) -/

/-- Python `str.splitlines` line-break characters. -/
def isLineBreak (c : Char) : Bool :=
  c = '\n' || c = '\r' || c = '\x0b' || c = '\x0c' || c = '\x1c' ||
  c = '\x1d' || c = '\x1e' || c = '\x85' || c = ' ' || c = ' '

/-- Python `str.splitlines` ( `\r\n` counts as a single break, no trailing
empty line). -/
def splitlinesPy : List Char → List (List Char) :=
  go []
where
  go (acc : List Char) : List Char → List (List Char)
    | [] => if acc.isEmpty then [] else [acc.reverse]
    | '\r' :: '\n' :: rest => acc.reverse :: go [] rest
    | c :: rest =>
      if isLineBreak c then acc.reverse :: go [] rest else go (c :: acc) rest

/-- `first_line_title` (generate.py lines 214-218): the first line whose
`strip()` is non-empty, stripped; `"app"` when there is none. -/
def first_line_title (prompt_text : List Char) : List Char :=
  match (splitlinesPy prompt_text).find? (fun l => !(pyStrip l).isEmpty) with
  | some l => pyStrip l
  | none => "app".data

/-- Character class of the regex `[\s_-]` used by `slugify`. -/
def isDashCls (c : Char) : Bool := isPySpace c || c = '_' || c = '-'

/-- `re.sub(r"[\s_-]+", "-", text)`: each maximal run of the class becomes
one hyphen.  The fuel argument only bounds the recursion; one unit is spent
per character, so `l.length` fuel never runs out. -/
def dashRunsF : Nat → List Char → List Char
  | 0, _ => []
  | _ + 1, [] => []
  | f + 1, c :: l =>
    if isDashCls c then '-' :: dashRunsF f (l.dropWhile isDashCls)
    else c :: dashRunsF f l

def dashRuns (l : List Char) : List Char := dashRunsF l.length l

/-- `slugify` (generate.py lines 208-212).  `unicodedata.normalize("NFKD", ·)`
is an external library boundary and is passed in as `nfkd` (it is the
identity on ASCII text); `.encode("ascii","ignore").decode("ascii")` is the
filter keeping code points below 128. -/
def slugify (nfkd : List Char → List Char) (text : List Char) : List Char :=
  let ascii := (nfkd text).filter (fun c => c.toNat < 128)
  let kept := ascii.filter (fun c => isWordCh c || isPySpace c || c = '-')
  let lowered := lowerL (pyStrip kept)
  let dashed := dashRuns lowered
  if dashed.isEmpty then "app".data else dashed

/-- Identifier derivation as `main` composes it (generate.py lines 310-311). -/
def deriveIdentifier (nfkd : List Char → List Char) (text : List Char) : List Char :=
  slugify nfkd (first_line_title text)

/-- The claim's character set: lowercase alphanumerics and hyphens. -/
def isSlugCh (c : Char) : Bool :=
  (c.isAlphanum && !c.isUpper) || c = '-'

/-- Classification of `pyLower` on the characters that survive
`slugify`'s two filters. -/
theorem pyLower_classify {c : Char}
    (hc : (isWordCh c || isPySpace c || c = '-') = true)
    (hd : isDashCls (pyLower c) = false) :
    (pyLower c).isAlphanum = true ∧ (pyLower c).isUpper = false := by
  by_cases hr : 65 ≤ c.toNat ∧ c.toNat ≤ 90
  · have ht : (pyLower c).toNat = c.toNat + 32 := toNat_pyLower_upper hr.1 hr.2
    have hl : (pyLower c).isLower = true := (char_isLower_iff _).mpr (by omega)
    have hu : (pyLower c).isUpper = false := by
      by_cases h : (pyLower c).isUpper
      · have := (char_isUpper_iff _).mp h
        omega
      · simpa using h
    exact ⟨by simp [Char.isAlphanum, Char.isAlpha, hl], hu⟩
  · rw [pyLower_eq_self hr] at hd ⊢
    simp only [Bool.or_eq_true] at hc
    rcases hc with (hw | hs) | hdash
    · simp only [isWordCh, Bool.or_eq_true] at hw
      rcases hw with (ha | hdig) | hund
      · simp only [Char.isAlpha, Bool.or_eq_true] at ha
        rcases ha with hu | hl
        · exact absurd ((char_isUpper_iff _).mp hu) hr
        · have hb := (char_isLower_iff _).mp hl
          refine ⟨by simp [Char.isAlphanum, Char.isAlpha, hl], ?_⟩
          by_cases h : c.isUpper
          · have := (char_isUpper_iff _).mp h
            omega
          · simpa using h
      · have hb := (char_isDigit_iff _).mp hdig
        refine ⟨by simp [Char.isAlphanum, hdig], ?_⟩
        by_cases h : c.isUpper
        · have := (char_isUpper_iff _).mp h
          omega
        · simpa using h
      · exfalso
        have hce : c = '_' := by simpa using hund
        simp [hce, isDashCls] at hd
    · exfalso
      simp [isDashCls, hs] at hd
    · exfalso
      have hce : c = '-' := by simpa using hdash
      simp [hce, isDashCls] at hd

theorem pyStrip_subset (l : List Char) : ∀ c ∈ pyStrip l, c ∈ l := by
  intro c hc
  unfold pyStrip at hc
  have h1 := List.mem_reverse.mp hc
  have h2 := (List.dropWhile_sublist (p := isPySpace)
    (l := (l.dropWhile isPySpace).reverse)).subset h1
  have h3 := List.mem_reverse.mp h2
  exact (List.dropWhile_sublist (p := isPySpace) (l := l)).subset h3

theorem dashRunsF_chars :
    ∀ (f : Nat) (l : List Char), ∀ c ∈ dashRunsF f l,
      c = '-' ∨ (c ∈ l ∧ isDashCls c = false) := by
  intro f
  induction f with
  | zero => intro l c hc; simp [dashRunsF] at hc
  | succ f ih =>
    intro l c hc
    cases l with
    | nil => simp [dashRunsF] at hc
    | cons a l =>
      rw [dashRunsF] at hc
      by_cases ha : isDashCls a
      · rw [if_pos ha] at hc
        rcases List.mem_cons.mp hc with h | h
        · exact Or.inl h
        · rcases ih _ c h with h' | ⟨hm, hcls⟩
          · exact Or.inl h'
          · exact Or.inr ⟨List.mem_cons_of_mem a
              ((List.dropWhile_sublist (l := l) (p := isDashCls)).subset hm), hcls⟩
      · rw [if_neg ha] at hc
        rcases List.mem_cons.mp hc with h | h
        · exact Or.inr ⟨by simp [h], by subst h; simpa using ha⟩
        · rcases ih _ c h with h' | ⟨hm, hcls⟩
          · exact Or.inl h'
          · exact Or.inr ⟨List.mem_cons_of_mem a hm, hcls⟩

theorem dashRuns_chars (l : List Char) :
    ∀ c ∈ dashRuns l, c = '-' ∨ (c ∈ l ∧ isDashCls c = false) :=
  dashRunsF_chars l.length l

theorem slugify_chars (nfkd : List Char → List Char) (text : List Char) :
    ∀ c ∈ slugify nfkd text, isSlugCh c = true := by
  intro c hc
  unfold slugify at hc
  simp only at hc
  by_cases he :
      (dashRuns (lowerL (pyStrip (((nfkd text).filter (fun c => c.toNat < 128)).filter
        (fun c => isWordCh c || isPySpace c || c = '-'))))).isEmpty
  · rw [if_pos he] at hc
    have hc2 : c = 'a' ∨ c = 'p' ∨ c = 'p' := by
      have hc3 : c ∈ ['a', 'p', 'p'] := hc
      simpa using hc3
    rcases hc2 with h | h | h <;> simp [h, isSlugCh]
  · rw [if_neg he] at hc
    rcases dashRuns_chars _ c hc with h | ⟨hm, hcls⟩
    · simp [h, isSlugCh]
    · -- `c` is `pyLower` of a character kept by both filters
      unfold lowerL at hm
      rcases List.mem_map.mp hm with ⟨c', hc', rfl⟩
      have hk := pyStrip_subset _ c' hc'
      have hf := (List.mem_filter.mp hk).2
      have := pyLower_classify hf hcls
      simp [isSlugCh, this.1, this.2]

theorem slugify_ne_nil (nfkd : List Char → List Char) (text : List Char) :
    slugify nfkd text ≠ [] := by
  unfold slugify
  simp only
  split_ifs with h
  · simp [String.data]
  · simpa [List.isEmpty_iff] using h

/-- Claim C6: identifier derivation (`first_line_title` then `slugify`) is
deterministic, uses the first non-blank line, and yields a non-empty
identifier over lowercase alphanumerics and hyphens, with the fixed
fallback `"app"`. -/
theorem c6_identifier_derivation (nfkd : List Char → List Char) (text : List Char) :
    deriveIdentifier nfkd text = slugify nfkd (first_line_title text)
    ∧ deriveIdentifier nfkd text ≠ []
    ∧ (∀ c ∈ deriveIdentifier nfkd text, isSlugCh c = true)
    ∧ (∀ other, other = text → deriveIdentifier nfkd other = deriveIdentifier nfkd text) := by
  refine ⟨rfl, slugify_ne_nil nfkd _, slugify_chars nfkd _, ?_⟩
  intro other h
  rw [h]

/-- Witness for C6 at the spec's own scenario input. -/
theorem c6_identifier_derivation_witness :
    deriveIdentifier (fun l => l) "Tally Counter\n- track clicks\n".data ≠ []
    ∧ deriveIdentifier (fun l => l) "Tally Counter\n- track clicks\n".data
        = "tally-counter".data := by
  constructor
  · exact (c6_identifier_derivation (fun l => l)
      "Tally Counter\n- track clicks\n".data).2.1
  · decide

/-! ## Persistence: filesystem model for `write_text_atomic`, `write_log`,
`save_latest` (generate.py lines 99-112 and 231-240) and `unique_path`
(lines 220-229). -/

/-- A filesystem state: each path holds contents or does not exist.
`write_text_atomic` writes a temporary file and `os.replace`s it over the
destination, so at this level of abstraction a write is an atomic update
of the destination path. -/
def FS : Type := List Char → Option (List Char)

def writeFile (fs : FS) (path content : List Char) : FS :=
  fun p => if p = path then some content else fs p

def deleteFile (fs : FS) (path : List Char) : FS :=
  fun p => if p = path then none else fs p

/-- `DIST / "log.txt"` (generate.py line 14). -/
def LOG_OUT : List Char := "dist/log.txt".data

/-- `LATEST_DIR / "app.html"` (generate.py line 233). -/
def LATEST_HTML : List Char := "dist/latest/app.html".data

/-- `LATEST_DIR / "app.py"` (generate.py line 235). -/
def LATEST_PY : List Char := "dist/latest/app.py".data

/-- `LATEST_DIR / "prompt.txt"` (generate.py line 314). -/
def LATEST_PROMPT : List Char := "dist/latest/prompt.txt".data

/-- `read_text_safe` (generate.py lines 106-107): contents when the file
exists, the empty string otherwise. -/
def read_text_safe (fs : FS) (path : List Char) : List Char :=
  (fs path).getD []

/-- `write_log` (generate.py lines 109-112): append-only via read, concat,
atomic write back. -/
def write_log (fs : FS) (line : List Char) : FS :=
  writeFile fs LOG_OUT (read_text_safe fs LOG_OUT ++ line ++ ['\n'])

/-- The closed artifact-kind enumeration returned by
`extract_html_or_python`. -/
inductive Kind where
  | html
  | py
deriving DecidableEq

def latestPath : Kind → List Char
  | .html => LATEST_HTML
  | .py => LATEST_PY

def otherKind : Kind → Kind
  | .html => .py
  | .py => .html

/-- `save_latest` (generate.py lines 231-240): write the kind's fixed
"latest" file, then remove the stale file of the other kind.  The
source's guarded `unlink` (`if p.exists(): p.unlink()`) equals an
unconditional delete on the map model. -/
def save_latest (fs : FS) (kind : Kind) (content : List Char) : FS :=
  match kind with
  | .html => deleteFile (writeFile fs LATEST_HTML content) LATEST_PY
  | .py => deleteFile (writeFile fs LATEST_PY content) LATEST_HTML

/-- Claim C9: `write_log` produces exactly the prior contents (empty when
the log is absent) followed by the new line and a newline, and the prior
contents remain a prefix. -/
theorem c9_write_log_append (fs : FS) (line : List Char) :
    (write_log fs line) LOG_OUT = some ((fs LOG_OUT).getD [] ++ line ++ ['\n'])
    ∧ (fs LOG_OUT).getD [] <+: ((write_log fs line) LOG_OUT).getD [] := by
  constructor
  · simp [write_log, writeFile, read_text_safe]
  · refine ⟨line ++ ['\n'], ?_⟩
    simp [write_log, writeFile, read_text_safe]

/-- Claim C8: after `save_latest`, the kind's "latest" file holds exactly
the saved content, the other kind's "latest" file does not exist, and at
most one of the two exists. -/
theorem c8_save_latest_exclusive (fs : FS) (kind : Kind) (content : List Char) :
    (save_latest fs kind content) (latestPath kind) = some content
    ∧ (save_latest fs kind content) (latestPath (otherKind kind)) = none
    ∧ ((save_latest fs kind content) LATEST_HTML = none
        ∨ (save_latest fs kind content) LATEST_PY = none) := by
  have hne : LATEST_HTML ≠ LATEST_PY := by decide
  cases kind with
  | html =>
    refine ⟨?_, ?_, Or.inr ?_⟩ <;>
      simp [save_latest, latestPath, otherKind, writeFile, deleteFile, hne]
  | py =>
    have hne' : LATEST_PY ≠ LATEST_HTML := fun h => hne h.symm
    refine ⟨?_, ?_, Or.inl ?_⟩ <;>
      simp [save_latest, latestPath, otherKind, writeFile, deleteFile, hne']

/-- Claim C10: `save_latest` only touches the two per-kind "latest" paths;
any other path is unchanged. -/
theorem c10_save_latest_frame (fs : FS) (kind : Kind) (content : List Char)
    (p : List Char) (h1 : p ≠ LATEST_HTML) (h2 : p ≠ LATEST_PY) :
    (save_latest fs kind content) p = fs p := by
  cases kind <;> simp [save_latest, writeFile, deleteFile, h1, h2]

/-- Witness for C10: the "latest" prompt copy, the log, and a versioned
app file are untouched by `save_latest`. -/
theorem c10_save_latest_frame_witness :
    (save_latest (fun _ => none) Kind.html "x".data) LATEST_PROMPT
        = (fun _ => none : FS) LATEST_PROMPT
    ∧ (save_latest (fun _ => none) Kind.html "x".data) LOG_OUT
        = (fun _ => none : FS) LOG_OUT
    ∧ (save_latest (fun _ => none) Kind.py "x".data)
        "dist/apps/tally-counter.html".data
        = (fun _ => none : FS) "dist/apps/tally-counter.html".data :=
  ⟨c10_save_latest_frame _ Kind.html _ _ (by decide) (by decide),
   c10_save_latest_frame _ Kind.html _ _ (by decide) (by decide),
   c10_save_latest_frame _ Kind.py _ _ (by decide) (by decide)⟩

/-! ## Collision resolution: `unique_path` (generate.py lines 220-229).
The path argument is given as the pair `stem`/`suffix` that
`pathlib.Path.stem` and `.suffix` extract; the existing files are a list
of path strings (`Path.exists`). -/

def digitChar (d : Nat) : Char := Char.ofNat (48 + d)

/-- Decimal numeral of `n` (Python `f"{i}"`), with a structural fuel
argument; one unit of fuel per digit, so `n` units always suffice. -/
def natDigitsF : Nat → Nat → List Char
  | 0, n => [digitChar (n % 10)]
  | f + 1, n =>
    if n < 10 then [digitChar n] else natDigitsF f (n / 10) ++ [digitChar (n % 10)]

def natDigits (n : Nat) : List Char := natDigitsF n n

/-- Decimal value of a digit string (used only to invert `natDigits`). -/
def digitsVal (l : List Char) : Nat :=
  l.foldl (fun a c => 10 * a + (c.toNat - 48)) 0

theorem toNat_digitChar {d : Nat} (h : d ≤ 9) : (digitChar d).toNat = 48 + d := by
  unfold digitChar
  rw [Char.ofNat, dif_pos (Or.inl (by omega))]
  simp [Char.ofNatAux, Char.toNat, UInt32.toNat]

theorem digitsVal_append_digit (l : List Char) (c : Char) :
    digitsVal (l ++ [c]) = 10 * digitsVal l + (c.toNat - 48) := by
  unfold digitsVal
  rw [List.foldl_append]
  rfl

theorem digitsVal_natDigitsF : ∀ (f n : Nat), n ≤ f →
    digitsVal (natDigitsF f n) = n := by
  intro f
  induction f with
  | zero =>
    intro n hn
    have : n = 0 := Nat.le_zero.mp hn
    subst this
    simp [natDigitsF, digitsVal, toNat_digitChar]
  | succ f ih =>
    intro n hn
    rw [natDigitsF]
    by_cases h : n < 10
    · rw [if_pos h]
      have hd := toNat_digitChar (d := n) (by omega)
      unfold digitsVal
      simp only [List.foldl_cons, List.foldl_nil, hd]
      omega
    · rw [if_neg h]
      rw [digitsVal_append_digit]
      have hdiv : n / 10 ≤ f := by
        have := Nat.div_lt_self (by omega : 0 < n) (by omega : 1 < 10)
        omega
      rw [ih _ hdiv, toNat_digitChar (by omega : n % 10 ≤ 9)]
      omega

theorem natDigits_injective : Function.Injective natDigits := by
  intro a b h
  have ha := digitsVal_natDigitsF a a (Nat.le_refl a)
  have hb := digitsVal_natDigitsF b b (Nat.le_refl b)
  rw [← ha, ← hb]
  unfold natDigits at h
  rw [h]

/-- `base` as a path string. -/
def pathName (stem suffix : List Char) : List Char := stem ++ suffix

/-- `base.with_name(f"{stem}-{i}{suffix}")`. -/
def verName (stem suffix : List Char) (i : Nat) : List Char :=
  stem ++ '-' :: (natDigits i ++ suffix)

theorem verName_injective (stem suffix : List Char) :
    Function.Injective (verName stem suffix) := by
  intro a b h
  unfold verName at h
  have h1 := List.append_cancel_left h
  have h2 : natDigits a ++ suffix = natDigits b ++ suffix := by
    injection h1
  exact natDigits_injective (List.append_cancel_right h2)

/-- The incrementing search always has a free candidate: the candidates
are pairwise distinct and the list of existing files is finite. -/
theorem exists_free_version (fs : List (List Char)) (stem suffix : List Char) :
    ∃ n, verName stem suffix (n + 2) ∉ fs := by
  by_contra hcon
  push_neg at hcon
  have hinj : Function.Injective (fun n : Nat => verName stem suffix (n + 2)) := by
    intro a b h
    have := verName_injective stem suffix h
    omega
  have hsub : (Finset.range (fs.length + 1)).image
      (fun n : Nat => verName stem suffix (n + 2)) ⊆ fs.toFinset := by
    intro x hx
    rcases Finset.mem_image.mp hx with ⟨n, _, rfl⟩
    exact List.mem_toFinset.mpr (hcon n)
  have hcard := Finset.card_le_card hsub
  rw [Finset.card_image_of_injective _ hinj, Finset.card_range] at hcard
  have := fs.toFinset_card_le
  omega

/-- `unique_path` (generate.py lines 220-229): the base path when it does
not exist, otherwise the first free of `stem-2suffix`, `stem-3suffix`, … -/
def unique_path (fs : List (List Char)) (stem suffix : List Char) : List Char :=
  if pathName stem suffix ∈ fs then
    verName stem suffix (Nat.find (exists_free_version fs stem suffix) + 2)
  else pathName stem suffix

theorem unique_path_not_mem (fs : List (List Char)) (stem suffix : List Char) :
    unique_path fs stem suffix ∉ fs := by
  unfold unique_path
  split_ifs with h
  · exact Nat.find_spec (exists_free_version fs stem suffix)
  · exact h

/-- Claim C7: collision resolution returns the base when free, otherwise
the first free numbered variant; the result never collides with an
existing file, and a second resolution against a filesystem extended with
the first result is a distinct path while the first remains present. -/
theorem c7_unique_path (fs : List (List Char)) (stem suffix : List Char) :
    (pathName stem suffix ∉ fs → unique_path fs stem suffix = pathName stem suffix)
    ∧ (pathName stem suffix ∈ fs →
        ∃ i, 2 ≤ i ∧ unique_path fs stem suffix = verName stem suffix i
          ∧ verName stem suffix i ∉ fs
          ∧ ∀ j, 2 ≤ j → j < i → verName stem suffix j ∈ fs)
    ∧ unique_path fs stem suffix ∉ fs
    ∧ unique_path (unique_path fs stem suffix :: fs) stem suffix
        ≠ unique_path fs stem suffix
    ∧ unique_path fs stem suffix ∈ (unique_path fs stem suffix :: fs) := by
  refine ⟨?_, ?_, unique_path_not_mem fs stem suffix, ?_, List.mem_cons_self _ _⟩
  · intro h
    unfold unique_path
    rw [if_neg h]
  · intro h
    refine ⟨Nat.find (exists_free_version fs stem suffix) + 2, by omega, ?_, ?_, ?_⟩
    · unfold unique_path
      rw [if_pos h]
    · exact Nat.find_spec (exists_free_version fs stem suffix)
    · intro j h2 hj
      by_contra hnot
      have := Nat.find_min (exists_free_version fs stem suffix)
        (m := j - 2) (by omega)
      exact this (by simpa [Nat.sub_add_cancel h2] using hnot)
  · intro heq
    have := unique_path_not_mem (unique_path fs stem suffix :: fs) stem suffix
    rw [heq] at this
    exact this (List.mem_cons_self _ _)

/-- Witness for C7 at the spec's scenario: `a.html` exists, so the next
write goes to `a-2.html`. -/
theorem c7_unique_path_witness :
    pathName "a".data ".html".data ∈ ["a.html".data]
    ∧ (∃ i, 2 ≤ i
        ∧ unique_path ["a.html".data] "a".data ".html".data
            = verName "a".data ".html".data i
        ∧ verName "a".data ".html".data i ∉ ["a.html".data]
        ∧ ∀ j, 2 ≤ j → j < i → verName "a".data ".html".data j ∈ ["a.html".data]) :=
  ⟨by decide,
   (c7_unique_path ["a.html".data] "a".data ".html".data).2.1 (by decide)⟩

/-! ## Classifier: `strip_code_fences` (generate.py lines 136-138) and
`extract_html_or_python` (lines 140-156).

`strip_code_fences` is `re.search(r"```(?:\w+)?\s*(.*?)\s*```", text,
DOTALL)`'s captured group (or the unchanged text).  The regex compiles to
a deterministic maximal-munch scan: after the opening fence, the greedy
`(?:\w+)?` and `\s*` can safely take their maximal runs, because word and
whitespace characters are never backticks, so shortening them can neither
create nor destroy a later closing fence; the lazy `(.*?)\s*` stops at
the first position from which only whitespace precedes a fence. -/

/-- The backtick character. -/
def btick : Char := Char.ofNat 96

def fence3 : List Char := [btick, btick, btick]

/-- Does a fence follow after only whitespace?  (The lazy group stops
here: `\s*` then the literal closing fence.) -/
def spacesThenFence (l : List Char) : Bool :=
  listSW fence3 (l.dropWhile isPySpace)

/-- The lazy `(.*?)\s*```` scan: grow the capture one character at a time
until only whitespace separates the scan point from a fence. -/
def lazyCap : List Char → List Char → Option (List Char)
  | acc, [] => if spacesThenFence [] then some acc.reverse else none
  | acc, c :: l =>
    if spacesThenFence (c :: l) then some acc.reverse else lazyCap (c :: acc) l

/-- Attempt the fence regex anchored at the current position. -/
def tryFenceAt (l : List Char) : Option (List Char) :=
  if listSW fence3 l then
    lazyCap [] (((l.drop 3).dropWhile isWordCh).dropWhile isPySpace)
  else none

/-- `re.search`: try every start position from the left. -/
def fenceSearch : List Char → Option (List Char)
  | [] => none
  | c :: l =>
    match tryFenceAt (c :: l) with
    | some cap => some cap
    | none => fenceSearch l

/-- `strip_code_fences` (generate.py lines 136-138). -/
def strip_code_fences (text : List Char) : List Char :=
  (fenceSearch text).getD text

/-! The five `py_markers` regexes (generate.py lines 148-151), compiled
pattern by pattern.  `\b` before a word character holds when the previous
character is absent or not a word character; `\b` after one when the next
character is absent or not a word character.  Interior `\s+`/`\w+` runs
are deterministic maximal munches because the classes are disjoint from
what must follow them. -/

def bOK : Option Char → Bool
  | none => true
  | some c => !isWordCh c

def bAfter : List Char → Bool
  | [] => true
  | c :: _ => !isWordCh c

/-- `\bimport\b` anchored (the leading `\b` is checked by the scanner). -/
def importAt (l : List Char) : Bool :=
  listSW "import".data l && bAfter (l.drop 6)

/-- `\bfrom\b\s+\w+\s+\bimport\b` anchored.  The `\b` after `from` and
before `import` hold automatically against the adjacent `\s+`. -/
def fromImportAt (l : List Char) : Bool :=
  if listSW "from".data l then
    let r1 := l.drop 4
    let sp1 := r1.takeWhile isPySpace
    let r2 := r1.drop sp1.length
    let w := r2.takeWhile isWordCh
    let r3 := r2.drop w.length
    let sp2 := r3.takeWhile isPySpace
    let r4 := r3.drop sp2.length
    !sp1.isEmpty && !w.isEmpty && !sp2.isEmpty && listSW "import".data r4
      && bAfter (r4.drop 6)
  else false

/-- `\bdef\s+\w+\(` and `\bclass\s+\w+\(` anchored, sharing the keyword. -/
def kwCallAt (kw : List Char) (l : List Char) : Bool :=
  if listSW kw l then
    let r1 := l.drop kw.length
    let sp := r1.takeWhile isPySpace
    let r2 := r1.drop sp.length
    let w := r2.takeWhile isWordCh
    let r3 := r2.drop w.length
    !sp.isEmpty && !w.isEmpty && listSW ['('] r3
  else false

/-- `if\s+__name__\s*==\s*['\"]__main__['\"]` anchored (no `\b`). -/
def mainGuardAt (l : List Char) : Bool :=
  if listSW "if".data l then
    let r1 := l.drop 2
    let sp1 := r1.takeWhile isPySpace
    let r2 := r1.drop sp1.length
    if !sp1.isEmpty && listSW "__name__".data r2 then
      let r3 := r2.drop 8
      let r4 := r3.drop (r3.takeWhile isPySpace).length
      if listSW "==".data r4 then
        let r5 := r4.drop 2
        let r6 := r5.drop (r5.takeWhile isPySpace).length
        match r6 with
        | q :: r7 =>
          (q = '\x27' || q = '"') && listSW "__main__".data r7 &&
            (match r7.drop 8 with
             | q2 :: _ => q2 = '\x27' || q2 = '"'
             | [] => false)
        | [] => false
      else false
    else false
  else false

/-- Scan every position, tracking the previous character for the leading
word boundary. -/
def scanB (test : List Char → Bool) : Option Char → List Char → Bool
  | _, [] => false
  | prev, c :: l => (bOK prev && test (c :: l)) || scanB test (some c) l

/-- Scan every position with no boundary requirement. -/
def scanAny (test : List Char → Bool) : List Char → Bool
  | [] => false
  | c :: l => test (c :: l) || scanAny test l

/-- `any(re.search(p, text) for p in py_markers)`. -/
def anyPyMarker (t : List Char) : Bool :=
  scanB importAt none t || scanB fromImportAt none t
    || scanB (kwCallAt "def".data) none t
    || scanB (kwCallAt "class".data) none t
    || scanAny mainGuardAt t

def DT15 : List Char := "<!doctype html>".data

def HTML_TAG : List Char := "<html".data

/-- `extract_html_or_python` (generate.py lines 140-156). -/
def extract_html_or_python (raw : List Char) : List Char × Kind :=
  let text := pyStrip (strip_code_fences raw)
  let lower := lowerL text
  if hasSub DT15 lower || hasSub HTML_TAG lower then (text, .html)
  else if anyPyMarker text then (text, .py)
  else if listSW ['<'] text then (text, .html)
  else (text, .py)

/-- Claim C3: the classification cascade — doctype or root tag first,
then the script idioms, then the `<` fallback, and `py` otherwise — and
totality onto the two kinds. -/
theorem c3_classification (raw : List Char) :
    ((hasSub DT15 (lowerL (pyStrip (strip_code_fences raw)))
        || hasSub HTML_TAG (lowerL (pyStrip (strip_code_fences raw)))) = true →
      extract_html_or_python raw = (pyStrip (strip_code_fences raw), Kind.html))
    ∧ ((hasSub DT15 (lowerL (pyStrip (strip_code_fences raw)))
        || hasSub HTML_TAG (lowerL (pyStrip (strip_code_fences raw)))) = false →
      anyPyMarker (pyStrip (strip_code_fences raw)) = true →
      extract_html_or_python raw = (pyStrip (strip_code_fences raw), Kind.py))
    ∧ ((hasSub DT15 (lowerL (pyStrip (strip_code_fences raw)))
        || hasSub HTML_TAG (lowerL (pyStrip (strip_code_fences raw)))) = false →
      anyPyMarker (pyStrip (strip_code_fences raw)) = false →
      listSW ['<'] (pyStrip (strip_code_fences raw)) = true →
      extract_html_or_python raw = (pyStrip (strip_code_fences raw), Kind.html))
    ∧ ((hasSub DT15 (lowerL (pyStrip (strip_code_fences raw)))
        || hasSub HTML_TAG (lowerL (pyStrip (strip_code_fences raw)))) = false →
      anyPyMarker (pyStrip (strip_code_fences raw)) = false →
      listSW ['<'] (pyStrip (strip_code_fences raw)) = false →
      extract_html_or_python raw = (pyStrip (strip_code_fences raw), Kind.py))
    ∧ ((extract_html_or_python raw).2 = Kind.html
        ∨ (extract_html_or_python raw).2 = Kind.py) := by
  refine ⟨?_, ?_, ?_, ?_, ?_⟩
  · intro h
    simp [extract_html_or_python, h]
  · intro h1 h2
    simp [extract_html_or_python, h1, h2]
  · intro h1 h2 h3
    simp [extract_html_or_python, h1, h2, h3]
  · intro h1 h2 h3
    simp [extract_html_or_python, h1, h2, h3]
  · unfold extract_html_or_python
    simp only []
    split_ifs <;> simp

/-- Witness for C3: a doctype-headed reply classifies as the markup kind;
a `__main__`-guard reply classifies as the script kind. -/
theorem c3_classification_witness :
    ((hasSub DT15 (lowerL (pyStrip (strip_code_fences "<!DOCTYPE html><x>".data)))
        || hasSub HTML_TAG (lowerL (pyStrip (strip_code_fences "<!DOCTYPE html><x>".data)))) = true
      ∧ extract_html_or_python "<!DOCTYPE html><x>".data
          = (pyStrip (strip_code_fences "<!DOCTYPE html><x>".data), Kind.html))
    ∧ extract_html_or_python "if __name__ == \x27__main__\x27:\n    pass".data
        = (pyStrip (strip_code_fences "if __name__ == \x27__main__\x27:\n    pass".data),
            Kind.py) :=
  ⟨⟨by decide, (c3_classification "<!DOCTYPE html><x>".data).1 (by decide)⟩,
   (c3_classification "if __name__ == \x27__main__\x27:\n    pass".data).2.1
     (by decide) (by decide)⟩

/-! ## Exactness of fence stripping (claim C4). -/

theorem dropWhile_append_all {p : Char → Bool} {xs : List Char}
    (h : ∀ c ∈ xs, p c = true) (ys : List Char) :
    (xs ++ ys).dropWhile p = ys.dropWhile p := by
  induction xs with
  | nil => rfl
  | cons c xs ih =>
    have hc : p c = true := h c (by simp)
    simp only [List.cons_append, List.dropWhile_cons, hc, if_true]
    exact ih (fun d hd => h d (by simp [hd]))

theorem dropWhile_cons_false {p : Char → Bool} {c : Char} (h : p c = false)
    (l : List Char) : (c :: l).dropWhile p = c :: l := by
  simp [List.dropWhile_cons, h]

theorem space_not_word {c : Char} (h : isPySpace c = true) : isWordCh c = false := by
  simp only [isPySpace, Bool.or_eq_true, decide_eq_true_eq] at h
  rcases h with ((((h | h) | h) | h) | h) | h <;> subst h <;> decide

theorem space_ne_btick {c : Char} (h : isPySpace c = true) : c ≠ btick := by
  simp only [isPySpace, Bool.or_eq_true, decide_eq_true_eq] at h
  rcases h with ((((h | h) | h) | h) | h) | h <;> subst h <;> decide

/-- Only whitespace before the closing fence: the lazy scan stops at
once. -/
theorem lazyCap_post {post : List Char} (hpost : ∀ c ∈ post, isPySpace c = true)
    (acc : List Char) : lazyCap acc (post ++ fence3) = some acc.reverse := by
  have hstf : spacesThenFence (post ++ fence3) = true := by
    unfold spacesThenFence
    rw [dropWhile_append_all hpost]
    decide
  cases hp : post with
  | nil =>
    rw [hp] at hstf
    show lazyCap acc (btick :: [btick, btick]) = some acc.reverse
    unfold lazyCap
    rw [if_pos (by simpa using hstf)]
  | cons c rest =>
    rw [hp] at hstf
    show lazyCap acc (c :: (rest ++ fence3)) = some acc.reverse
    unfold lazyCap
    rw [if_pos (by simpa using hstf)]

/-- While unconsumed non-whitespace content remains, the lazy scan does
not yet see the closing fence. -/
theorem stf_false {inner' post : List Char} (hne : inner' ≠ [])
    (hocc : occSub fence3 inner' = 0)
    (hlast : ∀ d, inner'.getLast? = some d →
      isPySpace d = false ∧ (d = btick → post ≠ []))
    (hpost : ∀ c ∈ post, isPySpace c = true) :
    spacesThenFence (inner' ++ (post ++ fence3)) = false := by
  unfold spacesThenFence
  set rest := inner'.dropWhile isPySpace with hrest
  have hsplit : inner' = inner'.takeWhile isPySpace ++ rest :=
    (List.takeWhile_append_dropWhile isPySpace inner').symm
  have hrest_ne : rest ≠ [] := by
    intro hnil
    have hall : ∀ c ∈ inner', isPySpace c = true :=
      List.dropWhile_eq_nil_iff.mp hnil
    cases hi : inner' with
    | nil => exact hne hi
    | cons a l =>
      have hd : inner'.getLast? = some ((a :: l).getLast (by simp)) := by
        rw [hi]
        exact List.getLast?_eq_getLast _ _
      have hmem : (a :: l).getLast (by simp) ∈ inner' := by
        rw [hi]
        exact List.getLast_mem _
      exact absurd (hall _ hmem) (by simp [(hlast _ hd).1])
  have hdw : (inner' ++ (post ++ fence3)).dropWhile isPySpace
      = rest ++ (post ++ fence3) := by
    conv =>
      lhs
      rw [hsplit, List.append_assoc]
    rw [dropWhile_append_all (fun c hc => List.mem_takeWhile_imp hc)]
    cases hr : rest with
    | nil => exact absurd hr hrest_ne
    | cons r0 r' =>
      have h0 : isPySpace r0 = false := by
        have := List.head?_dropWhile_not isPySpace inner'
        rw [← hrest, hr] at this
        simpa using this
      simp only [List.cons_append, List.dropWhile_cons, h0]
      simp
  rw [hdw]
  -- the last character of `inner'` is the last of `rest`
  have hlast_rest : ∀ d, rest.getLast? = some d →
      isPySpace d = false ∧ (d = btick → post ≠ []) := by
    intro d hd
    apply hlast
    rw [hsplit, List.getLast?_append_of_ne_nil _ hrest_ne]
    exact hd
  have hocc_rest : occSub fence3 rest = 0 := by
    rw [hsplit] at hocc
    exact occSub_zero_right hocc
  by_contra hcon
  simp only [Bool.not_eq_false] at hcon
  cases hr : rest with
  | nil => exact absurd hr hrest_ne
  | cons r0 r1 =>
    rw [hr] at hcon
    cases hr1 : r1 with
    | nil =>
      -- one character left: `r0` then `post ++ fence3`
      rw [hr1] at hcon
      simp only [fence3, List.cons_append, List.nil_append, listSW,
        Bool.and_eq_true, decide_eq_true_eq] at hcon
      have h0 : r0 = btick := hcon.1.symm
      have hlr := hlast_rest r0 (by simp [hr, hr1])
      have hpost_ne : post ≠ [] := (hlr.2) h0
      cases hp : post with
      | nil => exact absurd hp hpost_ne
      | cons p0 ps =>
        rw [hp] at hcon
        simp only [List.cons_append, listSW, Bool.and_eq_true,
          decide_eq_true_eq] at hcon
        exact space_ne_btick (hpost p0 (by simp [hp])) hcon.2.1.symm
    | cons r2 r3 =>
      cases hr3 : r3 with
      | nil =>
        -- two characters left
        rw [hr1, hr3] at hcon
        simp only [fence3, List.cons_append, List.nil_append, listSW,
          Bool.and_eq_true, decide_eq_true_eq] at hcon
        have h2 : r2 = btick := hcon.2.1.symm
        have hlr := hlast_rest r2 (by simp [hr, hr1, hr3])
        have hpost_ne : post ≠ [] := (hlr.2) h2
        cases hp : post with
        | nil => exact absurd hp hpost_ne
        | cons p0 ps =>
          rw [hp] at hcon
          simp only [List.cons_append, listSW, Bool.and_eq_true,
            decide_eq_true_eq] at hcon
          exact space_ne_btick (hpost p0 (by simp [hp])) hcon.2.2.1.symm
      | cons r4 r5 =>
        -- at least three characters: a fence inside `inner'`
        have hlen : (fence3 : List Char).length ≤ (r0 :: r1).length := by
          rw [hr1, hr3]
          simp [fence3]
        have hsw : listSW fence3 (r0 :: r1) = true :=
          listSW_append_trunc (l := r0 :: r1) (m := post ++ fence3)
            (by simpa using hcon) hlen
        have hhas : hasSub fence3 (r0 :: r1) = true := hasSub_of_listSW hsw
        have hz : hasSub fence3 (r0 :: r1) = false := by
          rw [← occSub_eq_zero_iff]
          rw [← hr]
          exact hocc_rest
        rw [hz] at hhas
        exact Bool.noConfusion hhas

/-- The lazy scan walks through the entire inner text and captures it
exactly. -/
theorem lazyCap_exact {post : List Char} (hpost : ∀ c ∈ post, isPySpace c = true) :
    ∀ (inner' acc : List Char), inner' ≠ [] →
      occSub fence3 inner' = 0 →
      (∀ d, inner'.getLast? = some d →
        isPySpace d = false ∧ (d = btick → post ≠ [])) →
      lazyCap acc (inner' ++ (post ++ fence3)) = some (acc.reverse ++ inner') := by
  intro inner'
  induction inner' with
  | nil => intro acc hne; exact absurd rfl hne
  | cons c cs ih =>
    intro acc _ hocc hlast
    have hstf := @stf_false (c :: cs) post (by simp) hocc hlast hpost
    cases hcs : cs with
    | nil =>
      subst hcs
      show lazyCap acc (c :: (post ++ fence3)) = some (acc.reverse ++ [c])
      unfold lazyCap
      rw [if_neg (by simpa using hstf)]
      rw [lazyCap_post hpost]
      simp
    | cons c2 cs' =>
      subst hcs
      show lazyCap acc (c :: ((c2 :: cs') ++ (post ++ fence3)))
          = some (acc.reverse ++ c :: c2 :: cs')
      unfold lazyCap
      rw [if_neg (by simpa using hstf)]
      have hocc' : occSub fence3 (c2 :: cs') = 0 := by
        have hstep : occSub fence3 (c :: c2 :: cs')
            = (if listSW fence3 (c :: c2 :: cs') then 1 else 0)
              + occSub fence3 (c2 :: cs') := rfl
        omega
      have hlast' : ∀ d, (c2 :: cs').getLast? = some d →
          isPySpace d = false ∧ (d = btick → post ≠ []) := by
        intro d hd
        apply hlast
        show (c :: c2 :: cs').getLast? = some d
        rw [show c :: c2 :: cs' = [c] ++ (c2 :: cs') from rfl,
          List.getLast?_append_of_ne_nil _ (by simp)]
        exact hd
      rw [ih (c :: acc) (by simp) hocc' hlast']
      simp

/-- Claim C4: for raw text that is exactly one outer fenced block —
opening fence, optional word-character language tag, whitespace, the
inner text, whitespace, closing fence — `strip_code_fences` returns the
inner text character for character, regardless of the tag.  The side
conditions say the inner text is what the fences delimit: it does not
start or end in the surrounding whitespace, does not itself contain or
abut a closing fence, and (absent a tag separator) does not begin with a
character that would parse as part of the tag. -/
theorem c4_strip_code_fences_exact (tag ws inner post : List Char)
    (htag : ∀ c ∈ tag, isWordCh c = true)
    (hws : ∀ c ∈ ws, isPySpace c = true)
    (hpost : ∀ c ∈ post, isPySpace c = true)
    (hocc : occSub fence3 inner = 0)
    (hhead : ∀ c, inner.head? = some c →
      isPySpace c = false ∧ (ws = [] → isWordCh c = false))
    (hlast : ∀ d, inner.getLast? = some d →
      isPySpace d = false ∧ (d = btick → post ≠ [])) :
    strip_code_fences
      (fence3 ++ (tag ++ (ws ++ (inner ++ (post ++ fence3))))) = inner := by
  have hfind : tryFenceAt (fence3 ++ (tag ++ (ws ++ (inner ++ (post ++ fence3)))))
      = some inner := by
    unfold tryFenceAt
    rw [if_pos (listSW_append_right (listSW_self fence3) _)]
    have hdrop3 : (fence3 ++ (tag ++ (ws ++ (inner ++ (post ++ fence3))))).drop 3
        = tag ++ (ws ++ (inner ++ (post ++ fence3))) := rfl
    rw [hdrop3]
    rw [dropWhile_append_all htag]
    have hword : (ws ++ (inner ++ (post ++ fence3))).dropWhile isWordCh
        = ws ++ (inner ++ (post ++ fence3)) := by
      cases hw : ws with
      | cons w0 ws' =>
        simp only [List.cons_append]
        exact dropWhile_cons_false (space_not_word (hws w0 (by simp [hw]))) _
      | nil =>
        simp only [List.nil_append]
        cases hi : inner with
        | cons i0 is =>
          simp only [List.cons_append]
          exact dropWhile_cons_false ((hhead i0 (by rw [hi]; rfl)).2 hw) _
        | nil =>
          simp only [List.nil_append]
          cases hp : post with
          | cons p0 ps =>
            simp only [List.cons_append]
            exact dropWhile_cons_false (space_not_word (hpost p0 (by simp [hp]))) _
          | nil =>
            decide
    rw [hword]
    rw [dropWhile_append_all hws]
    cases hi : inner with
    | cons i0 is =>
      simp only [List.cons_append]
      rw [dropWhile_cons_false (hhead i0 (by rw [hi]; rfl)).1]
      have hlz := lazyCap_exact hpost (i0 :: is) [] (by simp) (hi ▸ hocc)
        (fun d hd => hlast d (by rw [hi]; exact hd))
      simpa using hlz
    | nil =>
      simp only [List.nil_append]
      rw [dropWhile_append_all hpost]
      decide
  show strip_code_fences (btick :: btick :: btick ::
      (tag ++ (ws ++ (inner ++ (post ++ fence3))))) = inner
  unfold strip_code_fences fenceSearch
  rw [show btick :: btick :: btick :: (tag ++ (ws ++ (inner ++ (post ++ fence3))))
      = fence3 ++ (tag ++ (ws ++ (inner ++ (post ++ fence3)))) from rfl]
  rw [hfind]
  rfl

/-! ## Normalizer: `enforce_single_file_html` (generate.py lines 158-178).

The two removal substitutions compile as follows.  `re.sub` scans the
original text left to right and removes each leftmost non-overlapping
match, resuming after the removed span.  Within one anchored match, only
the leading `[^>]+` needs backtracking: the regex engine prefers the
longest class run, so candidate split points are tried in descending
order (`scriptK`/`linkK`).  The later greedy pieces (`[^"\']+`,
`[^>]*`, `\s*`) are each followed by a character their class excludes,
so their maximal runs are the only possible matches. -/

/-! Counting infrastructure for the normalizer proofs.  All the patterns
involved (`<script`, `<link`, `<head>`, the provenance stamp) start with
`<` and never repeat their head character (nor `\n`) in their tail, so
occurrence counting splits at any `<`- or newline-anchored junction, and
a `<`-headed block with a mismatch in its second or third character and
no further `<` contributes nothing. -/

/-- Generalised splitting: an anchor character that does not occur in the
pattern's tail cannot be read mid-match. -/
theorem occSub_split2 {p : List Char} {ch : Char} (hne : p ≠ [])
    (hch : ch ∉ p.drop 1) (a b : List Char) :
    occSub p (a ++ ch :: b) = occSub p a + occSub p (ch :: b) := by
  induction a with
  | nil =>
    have h0 : listSW p [] = false := by
      cases p with
      | nil => exact absurd rfl hne
      | cons q qs => rfl
    simp [occSub, h0]
  | cons c a ih =>
    have key : listSW p (c :: (a ++ ch :: b)) = listSW p (c :: a) := by
      by_cases hlen : p.length ≤ (c :: a).length
      · by_cases hw : listSW p (c :: (a ++ ch :: b))
        · rw [hw]
          exact (listSW_append_trunc (l := c :: a) (m := ch :: b)
            (by simpa using hw) hlen).symm
        · simp only [Bool.not_eq_true] at hw
          rw [hw]
          by_cases hx : listSW p (c :: a)
          · exact absurd (by simpa using listSW_append_right hx (ch :: b)) (by simp [hw])
          · simpa using hx
      · have h2 : listSW p (c :: a) = false := by
          by_cases hx : listSW p (c :: a)
          · exact absurd (listSW_length hx) hlen
          · simpa using hx
        rw [h2]
        by_cases hw : listSW p (c :: (a ++ ch :: b))
        · exact absurd (listSW_straddle (c :: a) p (by simpa using hw)
            (by simpa using Nat.lt_of_not_le hlen) (by simp)) hch
        · simpa using hw
    have expand : occSub p (c :: a ++ ch :: b)
        = (if listSW p (c :: (a ++ ch :: b)) then 1 else 0)
          + occSub p (a ++ ch :: b) := rfl
    have expand2 : occSub p (c :: a)
        = (if listSW p (c :: a) then 1 else 0) + occSub p a := rfl
    rw [expand, expand2, key, ih]
    omega

theorem listSW_false_at2 {p0 p1 c0 c1 : Char} {s b : List Char} (h : p1 ≠ c1) :
    listSW (p0 :: p1 :: s) (c0 :: c1 :: b) = false := by
  simp [listSW, h]

theorem listSW_false_at3 {p0 p1 p2 c0 c1 c2 : Char} {s b : List Char} (h : p2 ≠ c2) :
    listSW (p0 :: p1 :: p2 :: s) (c0 :: c1 :: c2 :: b) = false := by
  simp [listSW, h]

/-- Pass a `<`-headed block whose second character differs from the
pattern's and which has no further `<`. -/
theorem occ_through_at2 {p1 : Char} {ps : List Char} {b1 : Char} {brest : List Char}
    (hne : p1 ≠ b1) (hfree : '<' ∉ b1 :: brest) (X : List Char) :
    occSub ('<' :: p1 :: ps) (('<' :: b1 :: brest) ++ X)
      = occSub ('<' :: p1 :: ps) X := by
  have hsw : listSW ('<' :: p1 :: ps) ('<' :: b1 :: (brest ++ X)) = false :=
    listSW_false_at2 hne
  have expand : occSub ('<' :: p1 :: ps) ('<' :: b1 :: (brest ++ X))
      = (if listSW ('<' :: p1 :: ps) ('<' :: b1 :: (brest ++ X)) then 1 else 0)
        + occSub ('<' :: p1 :: ps) (b1 :: (brest ++ X)) := rfl
  show occSub ('<' :: p1 :: ps) ('<' :: b1 :: (brest ++ X)) = _
  rw [expand, hsw]
  simpa using @occSub_head_free (p1 :: ps) '<' (b1 :: brest) hfree X

/-- Same, with the mismatch in the third character. -/
theorem occ_through_at3 {p1 p2 : Char} {ps : List Char} {b2 : Char} {brest : List Char}
    (hne : p2 ≠ b2) (hfree : '<' ∉ p1 :: b2 :: brest) (X : List Char) :
    occSub ('<' :: p1 :: p2 :: ps) (('<' :: p1 :: b2 :: brest) ++ X)
      = occSub ('<' :: p1 :: p2 :: ps) X := by
  have hsw : listSW ('<' :: p1 :: p2 :: ps) ('<' :: p1 :: b2 :: (brest ++ X)) = false :=
    listSW_false_at3 hne
  have expand : occSub ('<' :: p1 :: p2 :: ps) ('<' :: p1 :: b2 :: (brest ++ X))
      = (if listSW ('<' :: p1 :: p2 :: ps) ('<' :: p1 :: b2 :: (brest ++ X)) then 1 else 0)
        + occSub ('<' :: p1 :: p2 :: ps) (p1 :: b2 :: (brest ++ X)) := rfl
  show occSub ('<' :: p1 :: p2 :: ps) ('<' :: p1 :: b2 :: (brest ++ X)) = _
  rw [expand, hsw]
  simpa using @occSub_head_free (p1 :: p2 :: ps) '<' (p1 :: b2 :: brest) hfree X

/-- A `<`-headed pattern occurs exactly once across a copy of itself when
its tail has no further `<`. -/
theorem occ_self_block {s' : List Char} (hfree : '<' ∉ s') (X : List Char) :
    occSub ('<' :: s') (('<' :: s') ++ X) = 1 + occSub ('<' :: s') X := by
  have hsw : listSW ('<' :: s') ('<' :: (s' ++ X)) = true := by
    have := listSW_append_right (listSW_self ('<' :: s')) X
    simpa using this
  have expand : occSub ('<' :: s') ('<' :: (s' ++ X))
      = (if listSW ('<' :: s') ('<' :: (s' ++ X)) then 1 else 0)
        + occSub ('<' :: s') (s' ++ X) := rfl
  show occSub ('<' :: s') ('<' :: (s' ++ X)) = _
  rw [expand, hsw]
  simp [@occSub_head_free s' '<' s' hfree X]

theorem hasSub_append_left {p a : List Char} (h : hasSub p a = true)
    (b : List Char) : hasSub p (a ++ b) = true := by
  induction a with
  | nil =>
    have hsw : listSW p [] = true := h
    cases p with
    | nil => exact hasSub_of_listSW (listSW_nil b)
    | cons q qs => exact absurd hsw (by simp [listSW])
  | cons c a ih =>
    simp only [hasSub, Bool.or_eq_true] at h
    rcases h with h | h
    · have := listSW_append_right h b
      cases hll : ((c :: a) ++ b) with
      | nil => simp at hll
      | cons d l =>
        rw [← hll]
        show hasSub p ((c :: a) ++ b) = true
        exact hasSub_of_listSW this
    · show (listSW p ((c :: a) ++ b) || hasSub p (a ++ b)) = true
      simp [ih h]

theorem listSW_prefix_of {p q l : List Char}
    (h : listSW (p ++ q) l = true) : listSW p l = true := by
  induction p generalizing l with
  | nil => exact listSW_nil _
  | cons a ps ih =>
    cases l with
    | nil => simp [listSW] at h
    | cons c l =>
      simp only [List.cons_append, listSW, Bool.and_eq_true] at h ⊢
      exact ⟨h.1, ih h.2⟩

/-- `pyLower` can only produce a lower-case letter or leave its argument
unchanged, so a non-letter absent from `ts` is absent from its lowering. -/
theorem not_mem_lowerL {d : Char} (hd : ¬(97 ≤ d.toNat ∧ d.toNat ≤ 122))
    {ts : List Char} (h : d ∉ ts) : d ∉ lowerL ts := by
  intro hmem
  rcases List.mem_map.mp hmem with ⟨c, hc, hpc⟩
  by_cases hr : 65 ≤ c.toNat ∧ c.toNat ≤ 90
  · have ht := toNat_pyLower_upper hr.1 hr.2
    rw [hpc] at ht
    exact hd (by omega)
  · rw [pyLower_eq_self hr] at hpc
    exact h (hpc ▸ hc)

/-- The provenance stamp, with the `datetime.utcnow().isoformat()` text
passed in as `ts`. -/
def stampOf (ts : List Char) : List Char :=
  "<!-- Auto-generated via Perplexity on ".data ++ ts ++ "Z -->".data

/-- `re.sub` with `count=1` on a case-insensitive literal pattern
(`(?i)<head>`): replace the first occurrence.  `pat` is given in lower
case. -/
def replaceFirstCI (pat rep : List Char) : List Char → List Char
  | [] => []
  | c :: l =>
    if listSW pat (lowerL (c :: l)) then rep ++ (c :: l).drop pat.length
    else c :: replaceFirstCI pat rep l

/-- Tail of the script-removal pattern after `<script[^>]+`:
`src=["\'][^"\']+["\'][^>]*>\s*</script>`; returns the consumed length. -/
def scriptRest (x : List Char) : Option Nat :=
  if listSW "src=".data (lowerL x) then
    match x.drop 4 with
    | q :: x2 =>
      if q = '"' || q = '\x27' then
        let v := x2.takeWhile (fun c => !(c = '"' || c = '\x27'))
        if v.isEmpty then none
        else
          match x2.drop v.length with
          | q2 :: x3 =>
            if q2 = '"' || q2 = '\x27' then
              let g := x3.takeWhile (fun c => c ≠ '>')
              match x3.drop g.length with
              | _ :: x4 =>
                let sp := x4.takeWhile isPySpace
                if listSW "</script>".data (lowerL (x4.drop sp.length)) then
                  some (4 + 1 + v.length + 1 + g.length + 1 + sp.length + 9)
                else none
              | [] => none
            else none
          | [] => none
      else none
    | [] => none
  else none

/-- Try the `[^>]+` split points in descending (greedy) order. -/
def scriptK (r : List Char) : Nat → Option Nat
  | 0 => none
  | k + 1 =>
    match scriptRest (r.drop (k + 1)) with
    | some m => some (7 + (k + 1) + m)
    | none => scriptK r k

/-- Match `<script[^>]+src=["\'][^"\']+["\'][^>]*>\s*</script>`
(IGNORECASE) anchored here; returns the match length. -/
def tryScriptAt (l : List Char) : Option Nat :=
  if listSW "<script".data (lowerL l) then
    scriptK (l.drop 7) ((l.drop 7).takeWhile (fun c => c ≠ '>')).length
  else none

/-- One `re.sub(pattern, "", t)` pass for the script pattern; fuel is one
unit per character, so `l.length` never runs out. -/
def scrubScriptF : Nat → List Char → List Char
  | 0, l => l
  | _ + 1, [] => []
  | f + 1, c :: l =>
    match tryScriptAt (c :: l) with
    | some n => scrubScriptF f (l.drop (n - 1))
    | none => c :: scrubScriptF f l

def scrubScript (l : List Char) : List Char := scrubScriptF l.length l

/-- Tail of the stylesheet-removal pattern after `<link[^>]+`:
`rel=["\']stylesheet["\'][^>]*>`; returns the consumed length. -/
def linkRest (x : List Char) : Option Nat :=
  if listSW "rel=".data (lowerL x) then
    match x.drop 4 with
    | q :: x2 =>
      if q = '"' || q = '\x27' then
        if listSW "stylesheet".data (lowerL x2) then
          match x2.drop 10 with
          | q2 :: x3 =>
            if q2 = '"' || q2 = '\x27' then
              let g := x3.takeWhile (fun c => c ≠ '>')
              match x3.drop g.length with
              | _ :: _ => some (4 + 1 + 10 + 1 + g.length + 1)
              | [] => none
            else none
          | [] => none
        else none
      else none
    | [] => none
  else none

def linkK (r : List Char) : Nat → Option Nat
  | 0 => none
  | k + 1 =>
    match linkRest (r.drop (k + 1)) with
    | some m => some (5 + (k + 1) + m)
    | none => linkK r k

/-- Match `<link[^>]+rel=["\']stylesheet["\'][^>]*>` (IGNORECASE)
anchored here; returns the match length. -/
def tryLinkAt (l : List Char) : Option Nat :=
  if listSW "<link".data (lowerL l) then
    linkK (l.drop 5) ((l.drop 5).takeWhile (fun c => c ≠ '>')).length
  else none

def scrubLinkF : Nat → List Char → List Char
  | 0, l => l
  | _ + 1, [] => []
  | f + 1, c :: l =>
    match tryLinkAt (c :: l) with
    | some n => scrubLinkF f (l.drop (n - 1))
    | none => c :: scrubLinkF f l

def scrubLink (l : List Char) : List Char := scrubLinkF l.length l

def DT_PREFIX : List Char := "<!DOCTYPE html>\n".data

def SHELL_PRE : List Char :=
  "<!DOCTYPE html>\n<html><head><meta charset=\x27utf-8\x27><title>App</title></head><body>\n".data

def SHELL_POST : List Char := "\n</body></html>".data

def META_REPL : List Char :=
  "<head>\n<meta charset=\x27utf-8\x27>\n<meta name=\x27viewport\x27 content=\x27width=device-width,initial-scale=1\x27>\n".data

def HEAD_TAG : List Char := "<head".data

def HEAD_LIT : List Char := "<head>".data

/-- `enforce_single_file_html` (generate.py lines 158-178), with the
generation timestamp as the explicit parameter `ts`. -/
def enforce_single_file_html (ts : List Char) (html_text : List Char) : List Char :=
  let t1 :=
    if hasSub DT15 (lowerL html_text) then html_text
    else if hasSub "<html".data (lowerL html_text) then DT_PREFIX ++ html_text
    else SHELL_PRE ++ html_text ++ SHELL_POST
  let t2 :=
    if hasSub HEAD_TAG (lowerL t1) then replaceFirstCI HEAD_LIT META_REPL t1
    else t1
  let t4 := scrubLink (scrubScript t2)
  if hasSub (stampOf ts) t4 then t4
  else if hasSub HEAD_TAG (lowerL t4) then
    replaceFirstCI HEAD_LIT ("<head>\n".data ++ stampOf ts ++ "\n".data) t4
  else stampOf ts ++ "\n".data ++ t4

/-- `re.sub(..., count=1)` replaces exactly the first occurrence: when no
case-insensitive occurrence starts inside `u` and the pattern never
repeats its head character, the match lands on `seg`. -/
theorem replaceFirstCI_append {pat : List Char} {p0 : Char} {ptail : List Char}
    (hp : pat = p0 :: ptail) (hp0 : p0 ∉ ptail) (rep : List Char) :
    ∀ (u : List Char) {seg v : List Char}, occSub pat (lowerL u) = 0 →
      lowerL seg = pat →
      replaceFirstCI pat rep (u ++ (seg ++ v)) = u ++ (rep ++ v) := by
  intro u
  induction u with
  | nil =>
    intro seg v _ hseg
    cases hs : seg with
    | nil =>
      rw [hs] at hseg
      rw [hp] at hseg
      exact absurd hseg.symm (by simp [lowerL])
    | cons s0 srest =>
      show replaceFirstCI pat rep (s0 :: (srest ++ v)) = rep ++ v
      have hsw : listSW pat (lowerL (s0 :: (srest ++ v))) = true := by
        have h1 : lowerL (s0 :: (srest ++ v)) = lowerL (s0 :: srest) ++ lowerL v := by
          simp [lowerL]
        rw [h1, ← hs, hseg]
        exact listSW_append_right (listSW_self pat) _
      unfold replaceFirstCI
      rw [if_pos hsw]
      have hlen : pat.length = (s0 :: srest).length := by
        rw [← hseg, hs]
        simp [lowerL]
      have : (s0 :: (srest ++ v)).drop pat.length = v := by
        rw [hlen]
        have := List.drop_left (s0 :: srest) v
        simpa using this
      rw [this]
  | cons c u' ih =>
    intro seg v hu hseg
    have hu' : occSub pat (lowerL u') = 0 := by
      have hcons : lowerL (c :: u') = pyLower c :: lowerL u' := rfl
      rw [hcons] at hu
      have expand : occSub pat (pyLower c :: lowerL u')
          = (if listSW pat (pyLower c :: lowerL u') then 1 else 0)
            + occSub pat (lowerL u') := rfl
      rw [expand] at hu
      omega
    have hswf : listSW pat (lowerL ((c :: u') ++ (seg ++ v))) = false := by
      by_contra hcon
      simp only [Bool.not_eq_false] at hcon
      have hseg' : List.map pyLower seg = pat := hseg
      have hform : lowerL ((c :: u') ++ (seg ++ v))
          = lowerL (c :: u') ++ (pat ++ lowerL v) := by
        simp [lowerL, hseg']
      rw [hform] at hcon
      by_cases hlen : pat.length ≤ (lowerL (c :: u')).length
      · have := listSW_append_trunc hcon hlen
        have hcons : lowerL (c :: u') = pyLower c :: lowerL u' := rfl
        rw [hcons] at this hu
        have expand : occSub pat (pyLower c :: lowerL u')
            = (if listSW pat (pyLower c :: lowerL u') then 1 else 0)
              + occSub pat (lowerL u') := rfl
        rw [expand, this] at hu
        simp at hu
      · have hx : lowerL (c :: u') ≠ [] := by simp [lowerL]
        have := @listSW_straddle p0 (ptail ++ lowerL v)
          (lowerL (c :: u')) pat
          (by rw [hp] at hcon ⊢; simpa using hcon)
          (by simpa using Nat.lt_of_not_le hlen) hx
        rw [hp] at this
        exact hp0 (by simpa using this)
    show replaceFirstCI pat rep (c :: (u' ++ (seg ++ v))) = c :: (u' ++ (rep ++ v))
    unfold replaceFirstCI
    rw [if_neg (by simpa using hswf)]
    rw [ih hu' hseg]

theorem scrubScriptF_noop : ∀ (f : Nat) (l : List Char),
    occSub "<script".data (lowerL l) = 0 → scrubScriptF f l = l := by
  intro f
  induction f with
  | zero => intro l _; rfl
  | succ f ih =>
    intro l hocc
    cases l with
    | nil => rfl
    | cons c l' =>
      have hcons : lowerL (c :: l') = pyLower c :: lowerL l' := rfl
      rw [hcons] at hocc
      have expand : occSub "<script".data (pyLower c :: lowerL l')
          = (if listSW "<script".data (pyLower c :: lowerL l') then 1 else 0)
            + occSub "<script".data (lowerL l') := rfl
      rw [expand] at hocc
      have hsw : listSW "<script".data (pyLower c :: lowerL l') = false := by
        by_cases h : listSW "<script".data (pyLower c :: lowerL l')
        · rw [h] at hocc; simp at hocc
        · simpa using h
      have htail : occSub "<script".data (lowerL l') = 0 := by omega
      have htry : tryScriptAt (c :: l') = none := by
        unfold tryScriptAt
        rw [if_neg (by rw [hcons]; simp [hsw])]
      show scrubScriptF (f + 1) (c :: l') = c :: l'
      unfold scrubScriptF
      rw [htry]
      rw [ih l' htail]

theorem scrubScript_noop {l : List Char}
    (hocc : occSub "<script".data (lowerL l) = 0) : scrubScript l = l :=
  scrubScriptF_noop l.length l hocc

theorem scrubLinkF_noop : ∀ (f : Nat) (l : List Char),
    occSub "<link".data (lowerL l) = 0 → scrubLinkF f l = l := by
  intro f
  induction f with
  | zero => intro l _; rfl
  | succ f ih =>
    intro l hocc
    cases l with
    | nil => rfl
    | cons c l' =>
      have hcons : lowerL (c :: l') = pyLower c :: lowerL l' := rfl
      rw [hcons] at hocc
      have expand : occSub "<link".data (pyLower c :: lowerL l')
          = (if listSW "<link".data (pyLower c :: lowerL l') then 1 else 0)
            + occSub "<link".data (lowerL l') := rfl
      rw [expand] at hocc
      have hsw : listSW "<link".data (pyLower c :: lowerL l') = false := by
        by_cases h : listSW "<link".data (pyLower c :: lowerL l')
        · rw [h] at hocc; simp at hocc
        · simpa using h
      have htail : occSub "<link".data (lowerL l') = 0 := by omega
      have htry : tryLinkAt (c :: l') = none := by
        unfold tryLinkAt
        rw [if_neg (by rw [hcons]; simp [hsw])]
      show scrubLinkF (f + 1) (c :: l') = c :: l'
      unfold scrubLinkF
      rw [htry]
      rw [ih l' htail]

theorem scrubLink_noop {l : List Char}
    (hocc : occSub "<link".data (lowerL l) = 0) : scrubLink l = l :=
  scrubLinkF_noop l.length l hocc

/-! Canonical decompositions of the normalizer's output.  The shell and
replacement constants are cut at every `<` so that each piece is a
`<`-headed block with no further `<`. -/

def B1 : List Char := "<!DOCTYPE html>\n".data

def LB1 : List Char := "<!doctype html>\n".data

def B2 : List Char := "<html>".data

def HD1 : List Char := "<head>\n".data

def MCHAR : List Char := "<meta charset=\x27utf-8\x27>\n".data

def MVIEW : List Char :=
  "<meta name=\x27viewport\x27 content=\x27width=device-width,initial-scale=1\x27>\n".data

def MCHAR2 : List Char := "<meta charset=\x27utf-8\x27>".data

def TITLEB : List Char := "<title>App".data

def LTITLEB : List Char := "<title>app".data

def TITLEC : List Char := "</title>".data

def HEADC : List Char := "</head>".data

def BODYO : List Char := "<body>\n".data

def BODYC : List Char := "</body>".data

def HTMLC : List Char := "</html>".data

/-- What follows the matched `<head>` in the shell-wrapped document. -/
def TAILA (t : List Char) : List Char :=
  '\n' :: (MCHAR ++ (MVIEW ++ (MCHAR2 ++ (TITLEB ++ (TITLEC ++ (HEADC ++
    (BODYO ++ (t ++ ('\n' :: (BODYC ++ HTMLC))))))))))

def LTAILA (lt : List Char) : List Char :=
  '\n' :: (MCHAR ++ (MVIEW ++ (MCHAR2 ++ (LTITLEB ++ (TITLEC ++ (HEADC ++
    (BODYO ++ (lt ++ ('\n' :: (BODYC ++ HTMLC))))))))))

/-- What follows the matched `<head>` in a document of the input's own. -/
def TAILB (v : List Char) : List Char := '\n' :: (MCHAR ++ (MVIEW ++ v))

/-- The stamp's tail after `<!`. -/
def STAIL (ts : List Char) : List Char :=
  "-- Auto-generated via Perplexity on ".data ++ ts ++ "Z -->".data

theorem stampOf_eq (ts : List Char) : stampOf ts = '<' :: '!' :: STAIL ts := rfl

theorem stail_no_lt {ts : List Char} (hlt : '<' ∉ ts) : '<' ∉ '!' :: STAIL ts := by
  intro hmem
  rcases List.mem_cons.mp hmem with h | h
  · exact absurd h (by decide)
  · unfold STAIL at h
    rcases List.mem_append.mp h with h | h
    · rcases List.mem_append.mp h with h | h
      · exact absurd h (by decide)
      · exact hlt h
    · exact absurd h (by decide)

theorem stail_no_nl {ts : List Char} (hnl : '\n' ∉ ts) : '\n' ∉ '!' :: STAIL ts := by
  intro hmem
  rcases List.mem_cons.mp hmem with h | h
  · exact absurd h (by decide)
  · unfold STAIL at h
    rcases List.mem_append.mp h with h | h
    · rcases List.mem_append.mp h with h | h
      · exact absurd h (by decide)
      · exact hnl h
    · exact absurd h (by decide)

theorem low_stamp_eq (ts : List Char) :
    lowerL (stampOf ts) = '<' :: '!' :: lowerL (STAIL ts) := rfl

theorem low_stail_no_lt {ts : List Char} (hlt : '<' ∉ ts) :
    '<' ∉ '!' :: lowerL (STAIL ts) := by
  intro hmem
  rcases List.mem_cons.mp hmem with h | h
  · exact absurd h (by decide)
  · have : lowerL (STAIL ts)
        = lowerL "-- Auto-generated via Perplexity on ".data
          ++ lowerL ts ++ lowerL "Z -->".data := by
      simp [STAIL, lowerL]
    rw [this] at h
    rcases List.mem_append.mp h with h | h
    · rcases List.mem_append.mp h with h | h
      · exact absurd h (by decide)
      · exact not_mem_lowerL (by decide) hlt h
    · exact absurd h (by decide)

theorem occ_nil_pat {s' : List Char} {c : Char} : occSub (c :: s') [] = 0 := rfl

/-- Pass a `<`-headed block given by name. -/
theorem occ_through_block {p1 : Char} {ps : List Char} {B : List Char}
    {b1 : Char} {brest : List Char} (hB : B = '<' :: b1 :: brest)
    (hne : p1 ≠ b1) (hfree : '<' ∉ b1 :: brest) (X : List Char) :
    occSub ('<' :: p1 :: ps) (B ++ X) = occSub ('<' :: p1 :: ps) X := by
  subst hB
  exact occ_through_at2 hne hfree X

theorem occ_through_block3 {p1 p2 : Char} {ps : List Char} {B : List Char}
    {b2 : Char} {brest : List Char} (hB : B = '<' :: p1 :: b2 :: brest)
    (hne : p2 ≠ b2) (hfree : '<' ∉ p1 :: b2 :: brest) (X : List Char) :
    occSub ('<' :: p1 :: p2 :: ps) (B ++ X) = occSub ('<' :: p1 :: p2 :: ps) X := by
  subst hB
  exact occ_through_at3 hne hfree X

theorem stampOf_eq4 (ts : List Char) :
    stampOf ts = '<' :: '!' :: '-' :: ('-' :: " Auto-generated via Perplexity on ".data
      ++ ts ++ "Z -->".data) := rfl

/-- Skip a symbolic zero-occurrence segment up to a `<`-anchored block. -/
theorem occ_drop_sym {p1 : Char} {ps : List Char} {U : List Char}
    (hU : occSub ('<' :: p1 :: ps) U = 0) (hch : '<' ∉ p1 :: ps)
    {B : List Char} {b1 : Char} {brest : List Char} (hB : B = '<' :: b1 :: brest)
    (X : List Char) :
    occSub ('<' :: p1 :: ps) (U ++ (B ++ X))
      = occSub ('<' :: p1 :: ps) (B ++ X) := by
  subst hB
  have h1 : ('<' :: b1 :: brest) ++ X = '<' :: (b1 :: brest ++ X) := by
    simp
  rw [h1]
  rw [occSub_split2 (by simp) (by simpa using hch)]
  rw [hU]
  simp

/-- Skip a symbolic zero segment and then pass the following block. -/
theorem occ_skip_sym {p1 : Char} {ps : List Char} {U : List Char}
    (hU : occSub ('<' :: p1 :: ps) U = 0) (hch : '<' ∉ p1 :: ps)
    {B : List Char} {b1 : Char} {brest : List Char} (hB : B = '<' :: b1 :: brest)
    (hne : p1 ≠ b1) (hfree : '<' ∉ b1 :: brest) (X : List Char) :
    occSub ('<' :: p1 :: ps) (U ++ (B ++ X)) = occSub ('<' :: p1 :: ps) X := by
  rw [occ_drop_sym hU hch hB X, hB]
  exact occ_through_at2 hne hfree X

/-- The stamp pattern finds nothing in the tail of the shell document. -/
theorem occ_stamp_TAILA {ts t : List Char} (hnl : '\n' ∉ ts)
    (ht : occSub (stampOf ts) t = 0) : occSub (stampOf ts) (TAILA t) = 0 := by
  rw [stampOf_eq] at ht ⊢
  unfold TAILA
  rw [occSub_cons_ne (by decide : '\n' ≠ '<')]
  rw [occ_through_block (by decide : MCHAR = '<' :: 'm' :: MCHAR.drop 2)
    (by decide) (by decide)]
  rw [occ_through_block (by decide : MVIEW = '<' :: 'm' :: MVIEW.drop 2)
    (by decide) (by decide)]
  rw [occ_through_block (by decide : MCHAR2 = '<' :: 'm' :: MCHAR2.drop 2)
    (by decide) (by decide)]
  rw [occ_through_block (by decide : TITLEB = '<' :: 't' :: TITLEB.drop 2)
    (by decide) (by decide)]
  rw [occ_through_block (by decide : TITLEC = '<' :: '/' :: TITLEC.drop 2)
    (by decide) (by decide)]
  rw [occ_through_block (by decide : HEADC = '<' :: '/' :: HEADC.drop 2)
    (by decide) (by decide)]
  rw [occ_through_block (by decide : BODYO = '<' :: 'b' :: BODYO.drop 2)
    (by decide) (by decide)]
  rw [occSub_split2 (by simp) (by simpa using stail_no_nl hnl)]
  rw [ht]
  rw [occSub_cons_ne (by decide : '\n' ≠ '<')]
  rw [occ_through_block (by decide : BODYC = '<' :: '/' :: BODYC.drop 2)
    (by decide) (by decide)]
  have hfin := @occ_through_block '!' (STAIL ts) HTMLC '/' (HTMLC.drop 2)
    (by decide) (by decide) (by decide) ([] : List Char)
  simpa [occSub, listSW] using hfin

/-- Generic `<`-headed pattern (script or stylesheet search) in the
lowered tail of the shell document. -/
theorem occ_low_TAILA {p1 : Char} {ps : List Char} {lt : List Char}
    (h1 : p1 ≠ 'm') (h2 : p1 ≠ 't') (h3 : p1 ≠ '/') (h4 : p1 ≠ 'b')
    (hnl : '\n' ∉ p1 :: ps)
    (ht : occSub ('<' :: p1 :: ps) lt = 0) :
    occSub ('<' :: p1 :: ps) (LTAILA lt) = 0 := by
  unfold LTAILA
  rw [occSub_cons_ne (by decide : '\n' ≠ '<')]
  rw [occ_through_block (by decide : MCHAR = '<' :: 'm' :: MCHAR.drop 2)
    h1 (by decide)]
  rw [occ_through_block (by decide : MVIEW = '<' :: 'm' :: MVIEW.drop 2)
    h1 (by decide)]
  rw [occ_through_block (by decide : MCHAR2 = '<' :: 'm' :: MCHAR2.drop 2)
    h1 (by decide)]
  rw [occ_through_block (by decide : LTITLEB = '<' :: 't' :: LTITLEB.drop 2)
    h2 (by decide)]
  rw [occ_through_block (by decide : TITLEC = '<' :: '/' :: TITLEC.drop 2)
    h3 (by decide)]
  rw [occ_through_block (by decide : HEADC = '<' :: '/' :: HEADC.drop 2)
    h3 (by decide)]
  rw [occ_through_block (by decide : BODYO = '<' :: 'b' :: BODYO.drop 2)
    h4 (by decide)]
  rw [occSub_split2 (by simp) (by simpa using hnl)]
  rw [ht]
  rw [occSub_cons_ne (by decide : '\n' ≠ '<')]
  rw [occ_through_block (by decide : BODYC = '<' :: '/' :: BODYC.drop 2)
    h3 (by decide)]
  have hfin := @occ_through_block p1 ps HTMLC '/' (HTMLC.drop 2)
    (by decide) h3 (by decide) ([] : List Char)
  simpa [occSub, listSW] using hfin

theorem occ_stamp_TAILB {ts v : List Char} (hv : occSub (stampOf ts) v = 0) :
    occSub (stampOf ts) (TAILB v) = 0 := by
  rw [stampOf_eq] at hv ⊢
  unfold TAILB
  rw [occSub_cons_ne (by decide : '\n' ≠ '<')]
  rw [occ_through_block (by decide : MCHAR = '<' :: 'm' :: MCHAR.drop 2)
    (by decide) (by decide)]
  rw [occ_through_block (by decide : MVIEW = '<' :: 'm' :: MVIEW.drop 2)
    (by decide) (by decide)]
  exact hv

theorem occ_low_TAILB {p1 : Char} {ps : List Char} {lv : List Char}
    (h1 : p1 ≠ 'm') (hv : occSub ('<' :: p1 :: ps) lv = 0) :
    occSub ('<' :: p1 :: ps) (TAILB lv) = 0 := by
  unfold TAILB
  rw [occSub_cons_ne (by decide : '\n' ≠ '<')]
  rw [occ_through_block (by decide : MCHAR = '<' :: 'm' :: MCHAR.drop 2)
    h1 (by decide)]
  rw [occ_through_block (by decide : MVIEW = '<' :: 'm' :: MVIEW.drop 2)
    h1 (by decide)]
  exact hv

/-- Lowering the shell tail lowers only the inner text and the title
block. -/
theorem low_TAILA_eq (t : List Char) : lowerL (TAILA t) = LTAILA (lowerL t) := by
  have e1 : pyLower '\n' = '\n' := by decide
  have e2 : List.map pyLower MCHAR = MCHAR := by decide
  have e3 : List.map pyLower MVIEW = MVIEW := by decide
  have e4 : List.map pyLower MCHAR2 = MCHAR2 := by decide
  have e5 : List.map pyLower TITLEB = LTITLEB := by decide
  have e6 : List.map pyLower TITLEC = TITLEC := by decide
  have e7 : List.map pyLower HEADC = HEADC := by decide
  have e8 : List.map pyLower BODYO = BODYO := by decide
  have e9 : List.map pyLower BODYC = BODYC := by decide
  have e10 : List.map pyLower HTMLC = HTMLC := by decide
  simp [TAILA, LTAILA, lowerL, e1, e2, e3, e4, e5, e6, e7, e8, e9, e10]

theorem low_TAILB_eq (v : List Char) : lowerL (TAILB v) = TAILB (lowerL v) := by
  have e1 : pyLower '\n' = '\n' := by decide
  have e2 : List.map pyLower MCHAR = MCHAR := by decide
  have e3 : List.map pyLower MVIEW = MVIEW := by decide
  simp [TAILB, lowerL, e1, e2, e3]

/-- The stamp pattern finds nothing in the pre-stamp normalized shell. -/
theorem occ_stamp_t2A {ts t : List Char} (hnl : '\n' ∉ ts)
    (ht : occSub (stampOf ts) t = 0) :
    occSub (stampOf ts) (B1 ++ (B2 ++ (HEAD_LIT ++ TAILA t))) = 0 := by
  rw [stampOf_eq4] at ht ⊢
  rw [occ_through_block3 (by decide : B1 = '<' :: '!' :: 'D' :: B1.drop 3)
    (by decide) (by decide)]
  rw [occ_through_block (by decide : B2 = '<' :: 'h' :: B2.drop 2)
    (by decide) (by decide)]
  rw [occ_through_block (by decide : HEAD_LIT = '<' :: 'h' :: HEAD_LIT.drop 2)
    (by decide) (by decide)]
  rw [← stampOf_eq4] at ht ⊢
  exact occ_stamp_TAILA hnl ht

/-- Exactly one stamp occurrence in the shell-wrapped output. -/
theorem occ_stamp_OA {ts t : List Char} (hlt : '<' ∉ ts) (hnl : '\n' ∉ ts)
    (ht : occSub (stampOf ts) t = 0) :
    occSub (stampOf ts)
      (B1 ++ (B2 ++ (HD1 ++ (stampOf ts ++ ('\n' :: TAILA t))))) = 1 := by
  have h0 : occSub (stampOf ts) (TAILA t) = 0 := occ_stamp_TAILA hnl ht
  have hfr : '<' ∉ '!' :: '-' :: ('-' :: " Auto-generated via Perplexity on ".data
      ++ ts ++ "Z -->".data) := stail_no_lt hlt
  rw [stampOf_eq4] at h0 ⊢
  rw [occ_through_block3 (by decide : B1 = '<' :: '!' :: 'D' :: B1.drop 3)
    (by decide) (by decide)]
  rw [occ_through_block (by decide : B2 = '<' :: 'h' :: B2.drop 2)
    (by decide) (by decide)]
  rw [occ_through_block (by decide : HD1 = '<' :: 'h' :: HD1.drop 2)
    (by decide) (by decide)]
  rw [occ_self_block hfr ('\n' :: TAILA t)]
  rw [occSub_cons_ne (by decide : '\n' ≠ '<')]
  rw [h0]

/-- Generic `<`-headed pattern over the lowered pre-stamp shell. -/
theorem occ_low_t2A {p1 : Char} {ps : List Char} {lt : List Char}
    (h1 : p1 ≠ 'm') (h2 : p1 ≠ 't') (h3 : p1 ≠ '/') (h4 : p1 ≠ 'b')
    (h5 : p1 ≠ '!') (h6 : p1 ≠ 'h') (hnl : '\n' ∉ p1 :: ps)
    (ht : occSub ('<' :: p1 :: ps) lt = 0) :
    occSub ('<' :: p1 :: ps) (LB1 ++ (B2 ++ (HEAD_LIT ++ LTAILA lt))) = 0 := by
  rw [occ_through_block (by decide : LB1 = '<' :: '!' :: LB1.drop 2) h5 (by decide)]
  rw [occ_through_block (by decide : B2 = '<' :: 'h' :: B2.drop 2) h6 (by decide)]
  rw [occ_through_block (by decide : HEAD_LIT = '<' :: 'h' :: HEAD_LIT.drop 2)
    h6 (by decide)]
  exact occ_low_TAILA h1 h2 h3 h4 hnl ht

/-- Generic `<`-headed pattern over the lowered stamped shell output. -/
theorem occ_low_OA {p1 : Char} {ps : List Char} {ts lt : List Char}
    (hlt : '<' ∉ ts)
    (h1 : p1 ≠ 'm') (h2 : p1 ≠ 't') (h3 : p1 ≠ '/') (h4 : p1 ≠ 'b')
    (h5 : p1 ≠ '!') (h6 : p1 ≠ 'h') (hnl : '\n' ∉ p1 :: ps)
    (ht : occSub ('<' :: p1 :: ps) lt = 0) :
    occSub ('<' :: p1 :: ps)
      (LB1 ++ (B2 ++ (HD1 ++ (('<' :: '!' :: lowerL (STAIL ts))
        ++ ('\n' :: LTAILA lt))))) = 0 := by
  rw [occ_through_block (by decide : LB1 = '<' :: '!' :: LB1.drop 2) h5 (by decide)]
  rw [occ_through_block (by decide : B2 = '<' :: 'h' :: B2.drop 2) h6 (by decide)]
  rw [occ_through_block (by decide : HD1 = '<' :: 'h' :: HD1.drop 2) h6 (by decide)]
  rw [occ_through_block rfl h5 (low_stail_no_lt hlt)]
  rw [occSub_cons_ne (by decide : '\n' ≠ '<')]
  exact occ_low_TAILA h1 h2 h3 h4 hnl ht

/-- The stamp pattern finds nothing after the head-only meta injection. -/
theorem occ_stamp_t2B {ts u v : List Char} (hlt : '<' ∉ ts)
    (hu : occSub (stampOf ts) u = 0) (hv : occSub (stampOf ts) v = 0) :
    occSub (stampOf ts) (u ++ (HEAD_LIT ++ TAILB v)) = 0 := by
  have h0 : occSub (stampOf ts) (TAILB v) = 0 := occ_stamp_TAILB hv
  have hch : '<' ∉ '!' :: STAIL ts := stail_no_lt hlt
  rw [stampOf_eq] at h0 hu ⊢
  rw [occ_skip_sym hu hch (by decide : HEAD_LIT = '<' :: 'h' :: HEAD_LIT.drop 2)
    (by decide) (by decide) _]
  exact h0

/-- Exactly one stamp occurrence in the head-injected output. -/
theorem occ_stamp_OB {ts u v : List Char} (hlt : '<' ∉ ts)
    (hu : occSub (stampOf ts) u = 0) (hv : occSub (stampOf ts) v = 0) :
    occSub (stampOf ts) (u ++ (HD1 ++ (stampOf ts ++ ('\n' :: TAILB v)))) = 1 := by
  have h0 : occSub (stampOf ts) (TAILB v) = 0 := occ_stamp_TAILB hv
  have hch : '<' ∉ '!' :: STAIL ts := stail_no_lt hlt
  rw [stampOf_eq] at h0 hu ⊢
  rw [occ_drop_sym hu hch (by decide : HD1 = '<' :: 'h' :: HD1.drop 2) _]
  rw [occ_through_block (by decide : HD1 = '<' :: 'h' :: HD1.drop 2)
    (by decide) (by decide)]
  rw [occ_self_block hch ('\n' :: TAILB v)]
  rw [occSub_cons_ne (by decide : '\n' ≠ '<')]
  rw [h0]

theorem occ_low_t2B {p1 : Char} {ps : List Char} {lu lv : List Char}
    (h1 : p1 ≠ 'm') (h6 : p1 ≠ 'h') (hch : '<' ∉ p1 :: ps)
    (hu : occSub ('<' :: p1 :: ps) lu = 0) (hv : occSub ('<' :: p1 :: ps) lv = 0) :
    occSub ('<' :: p1 :: ps) (lu ++ (HEAD_LIT ++ TAILB lv)) = 0 := by
  rw [occ_skip_sym hu hch (by decide : HEAD_LIT = '<' :: 'h' :: HEAD_LIT.drop 2)
    h6 (by decide) _]
  exact occ_low_TAILB h1 hv

theorem occ_low_OB {p1 : Char} {ps : List Char} {ts lu lv : List Char}
    (hlt : '<' ∉ ts)
    (h1 : p1 ≠ 'm') (h5 : p1 ≠ '!') (h6 : p1 ≠ 'h') (hch : '<' ∉ p1 :: ps)
    (hu : occSub ('<' :: p1 :: ps) lu = 0) (hv : occSub ('<' :: p1 :: ps) lv = 0) :
    occSub ('<' :: p1 :: ps)
      (lu ++ (HD1 ++ (('<' :: '!' :: lowerL (STAIL ts)) ++ ('\n' :: TAILB lv)))) = 0 := by
  rw [occ_drop_sym hu hch (by decide : HD1 = '<' :: 'h' :: HD1.drop 2) _]
  rw [occ_through_block (by decide : HD1 = '<' :: 'h' :: HD1.drop 2) h6 (by decide)]
  rw [occ_through_block rfl h5 (low_stail_no_lt hlt)]
  rw [occSub_cons_ne (by decide : '\n' ≠ '<')]
  exact occ_low_TAILB h1 hv

/-- The constant shell text between `<head>` and the wrapped input. -/
def SHTAIL (t : List Char) : List Char :=
  MCHAR2 ++ (TITLEB ++ (TITLEC ++ (HEADC ++ (BODYO ++ (t ++ ('\n' :: (BODYC ++ HTMLC)))))))

theorem low_t2A_eq (t : List Char) :
    lowerL (B1 ++ (B2 ++ (HEAD_LIT ++ TAILA t)))
      = LB1 ++ (B2 ++ (HEAD_LIT ++ LTAILA (lowerL t))) := by
  have e1 : List.map pyLower B1 = LB1 := by decide
  have e2 : List.map pyLower B2 = B2 := by decide
  have e3 : List.map pyLower HEAD_LIT = HEAD_LIT := by decide
  have e4 := low_TAILA_eq t
  simp only [lowerL] at e4 ⊢
  simp [e1, e2, e3, e4]

theorem low_OA_eq (ts t : List Char) :
    lowerL (B1 ++ (B2 ++ (HD1 ++ (stampOf ts ++ ('\n' :: TAILA t)))))
      = LB1 ++ (B2 ++ (HD1 ++ (('<' :: '!' :: lowerL (STAIL ts))
        ++ ('\n' :: LTAILA (lowerL t))))) := by
  have e1 : List.map pyLower B1 = LB1 := by decide
  have e2 : List.map pyLower B2 = B2 := by decide
  have e3 : List.map pyLower HD1 = HD1 := by decide
  have e4 := low_TAILA_eq t
  have e5 := low_stamp_eq ts
  have e6 : pyLower '\n' = '\n' := by decide
  simp only [lowerL] at e4 e5 ⊢
  simp [e1, e2, e3, e4, e5, e6]

theorem low_t2B_eq (u v : List Char) :
    lowerL (u ++ (HEAD_LIT ++ TAILB v))
      = lowerL u ++ (HEAD_LIT ++ TAILB (lowerL v)) := by
  have e3 : List.map pyLower HEAD_LIT = HEAD_LIT := by decide
  have e4 := low_TAILB_eq v
  simp only [lowerL] at e4 ⊢
  simp [e3, e4]

theorem low_OB_eq (ts u v : List Char) :
    lowerL (u ++ (HD1 ++ (stampOf ts ++ ('\n' :: TAILB v))))
      = lowerL u ++ (HD1 ++ (('<' :: '!' :: lowerL (STAIL ts))
        ++ ('\n' :: TAILB (lowerL v)))) := by
  have e3 : List.map pyLower HD1 = HD1 := by decide
  have e4 := low_TAILB_eq v
  have e5 := low_stamp_eq ts
  have e6 : pyLower '\n' = '\n' := by decide
  simp only [lowerL] at e4 e5 ⊢
  simp [e3, e4, e5, e6]

/-- A `<head>` literal anywhere gives the `<head` substring test. -/
theorem hasSub_head_mid (a b : List Char) :
    hasSub HEAD_TAG (a ++ (HEAD_LIT ++ b)) = true := by
  have h1 : listSW HEAD_TAG (HEAD_LIT ++ b) = true :=
    listSW_append_right (by decide : listSW HEAD_TAG HEAD_LIT = true) b
  exact hasSub_append_right h1 a

theorem hasSub_head_low (a b : List Char) :
    hasSub HEAD_TAG (lowerL (a ++ (HEAD_LIT ++ b))) = true := by
  have e3 : List.map pyLower HEAD_LIT = HEAD_LIT := by decide
  have e : lowerL (a ++ (HEAD_LIT ++ b)) = lowerL a ++ (HEAD_LIT ++ lowerL b) := by
    simp [lowerL, e3]
  rw [e]
  exact hasSub_head_mid (lowerL a) (lowerL b)

/-! ## Validator: `validate_html` (generate.py lines 186-199). -/

/-- `re.search(r'<script[^>]+src=', lower)` anchored after `<script`:
at least one non-`>` character, then the literal `src=`. -/
def srcScan : List Char → Bool
  | [] => false
  | c :: l => if c = '>' then false else (listSW "src=".data l || srcScan l)

def scriptSrcAt (l : List Char) : Bool :=
  listSW "<script".data l && srcScan (l.drop 7)

def detectScriptSrc (l : List Char) : Bool := scanAny scriptSrcAt l

/-- `re.search(r'<link[^>]+rel=["\']stylesheet', lower)` anchored after
`<link`. -/
def relScan : List Char → Bool
  | [] => false
  | c :: l =>
    if c = '>' then false
    else ((listSW "rel=\"stylesheet".data l || listSW "rel=\x27stylesheet".data l)
      || relScan l)

def linkStyAt (l : List Char) : Bool :=
  listSW "<link".data l && relScan (l.drop 5)

def detectLinkSty (l : List Char) : Bool := scanAny linkStyAt l

theorem scanAny_scriptSrc_false : ∀ {l : List Char},
    occSub "<script".data l = 0 → detectScriptSrc l = false := by
  intro l
  induction l with
  | nil => intro _; rfl
  | cons c l' ih =>
    intro hocc
    have expand : occSub "<script".data (c :: l')
        = (if listSW "<script".data (c :: l') then 1 else 0)
          + occSub "<script".data l' := rfl
    rw [expand] at hocc
    have hsw : listSW "<script".data (c :: l') = false := by
      by_cases h : listSW "<script".data (c :: l')
      · rw [h] at hocc; simp at hocc
      · simpa using h
    have htail : occSub "<script".data l' = 0 := by omega
    show scanAny scriptSrcAt (c :: l') = false
    unfold scanAny
    have h1 : scriptSrcAt (c :: l') = false := by
      unfold scriptSrcAt
      simp [hsw]
    rw [h1]
    simpa [detectScriptSrc] using ih htail

theorem scanAny_linkSty_false : ∀ {l : List Char},
    occSub "<link".data l = 0 → detectLinkSty l = false := by
  intro l
  induction l with
  | nil => intro _; rfl
  | cons c l' ih =>
    intro hocc
    have expand : occSub "<link".data (c :: l')
        = (if listSW "<link".data (c :: l') then 1 else 0)
          + occSub "<link".data l' := rfl
    rw [expand] at hocc
    have hsw : listSW "<link".data (c :: l') = false := by
      by_cases h : listSW "<link".data (c :: l')
      · rw [h] at hocc; simp at hocc
      · simpa using h
    have htail : occSub "<link".data l' = 0 := by omega
    show scanAny linkStyAt (c :: l') = false
    unfold scanAny
    have h1 : linkStyAt (c :: l') = false := by
      unfold linkStyAt
      simp [hsw]
    rw [h1]
    simpa [detectLinkSty] using ih htail


/-! ## Context-robust scanning: per-position refutation of the external
script and stylesheet scanners survives any continuation.  This drives
the validator scanners over the normalizer output while the input may
hold inline scripts and non-stylesheet links. -/

theorem listSW_indep {p a : List Char} (hlen : p.length ≤ a.length) (X : List Char) :
    listSW p (a ++ X) = listSW p a := by
  cases h : listSW p a
  · by_cases h2 : listSW p (a ++ X) = true
    · exact absurd (listSW_append_trunc h2 hlen) (by simp [h])
    · simpa using h2
  · exact listSW_append_right h X

/-- A strict prefix of the scanned text that is not itself a prefix of
the pattern refutes the pattern under every continuation. -/
theorem listSW_short_false {a p : List Char} (hlen : a.length < p.length)
    (h : listSW a p = false) (X : List Char) : listSW p (a ++ X) = false := by
  induction a generalizing p with
  | nil => exact absurd (listSW_nil p) (by simp [h])
  | cons b a2 ih =>
    cases p with
    | nil => simp at hlen
    | cons q p2 =>
      simp only [List.cons_append, listSW]
      by_cases hqb : q = b
      · have h2 : listSW a2 p2 = false := by
          have he : listSW (b :: a2) (q :: p2) = ((b = q : Bool) && listSW a2 p2) := rfl
          rw [he] at h
          simpa [hqb] using h
        have hl2 : a2.length < p2.length := by
          simp only [List.length_cons] at hlen
          omega
        simp [hqb, ih hl2 h2]
      · simp [hqb]

/-- Every position of the block refutes the pattern in any continuation;
decidable on each constant block. -/
def blockFree (p : List Char) : List Char → Bool
  | [] => true
  | c :: B =>
    (if p.length ≤ B.length + 1 then !(listSW p (c :: B)) else !(listSW (c :: B) p))
      && blockFree p B

theorem blockFree_spec {p B : List Char} (hB : blockFree p B = true) (X : List Char) :
    ∀ k, k < B.length → listSW p (B.drop k ++ X) = false := by
  induction B with
  | nil => intro k hk; simp at hk
  | cons c B2 ih =>
    have hB2 : ((if p.length ≤ B2.length + 1 then !(listSW p (c :: B2))
        else !(listSW (c :: B2) p)) && blockFree p B2) = true := hB
    rw [Bool.and_eq_true] at hB2
    intro k hk
    cases k with
    | zero =>
      show listSW p ((c :: B2) ++ X) = false
      by_cases hlen : p.length ≤ B2.length + 1
      · rw [listSW_indep (by simpa using hlen) X]
        have h1 := hB2.1
        rw [if_pos hlen] at h1
        simpa using h1
      · have hsh : listSW (c :: B2) p = false := by
          have h1 := hB2.1
          rw [if_neg hlen] at h1
          simpa using h1
        exact listSW_short_false (by simp only [List.length_cons]; omega) hsh X
    | succ k2 =>
      exact ih hB2.2 k2 (by simp only [List.length_cons] at hk; omega)

theorem scanAny_through_pos {test : List Char → Bool} :
    ∀ {a X : List Char},
      (∀ k, k < a.length → test (a.drop k ++ X) = false) →
      scanAny test (a ++ X) = scanAny test X := by
  intro a
  induction a with
  | nil => intro X _; rfl
  | cons c a2 ih =>
    intro X h
    show (test ((c :: a2) ++ X) || scanAny test (a2 ++ X)) = scanAny test X
    have h0 : test ((c :: a2) ++ X) = false := h 0 (by simp)
    rw [h0]
    simp only [Bool.false_or]
    exact ih fun k hk => h (k + 1) (by simp only [List.length_cons]; omega)

theorem scanAny_through_free {p : List Char} {test : List Char → Bool}
    (hT : ∀ l, listSW p l = false → test l = false)
    {B : List Char} (hB : blockFree p B = true) (X : List Char) :
    scanAny test (B ++ X) = scanAny test X :=
  scanAny_through_pos fun k hk => hT _ (blockFree_spec hB X k hk)

theorem scanAny_through_no_head {p0 : Char} {p2 : List Char} {test : List Char → Bool}
    (hT : ∀ l, listSW (p0 :: p2) l = false → test l = false)
    {a : List Char} (ha : p0 ∉ a) (X : List Char) :
    scanAny test (a ++ X) = scanAny test X := by
  apply scanAny_through_pos
  intro k hk
  apply hT
  cases hd : a.drop k with
  | nil =>
    have hlen : a.length - k = 0 := by simpa using congrArg List.length hd
    omega
  | cons c r =>
    have hc : c ∈ a := List.mem_of_mem_drop (by rw [hd]; simp)
    simp only [List.cons_append, listSW]
    simp [show ¬(p0 = c) from fun hh => ha (hh ▸ hc)]

theorem scanAny_pos_false {test : List Char → Bool} (hnil : test [] = false) :
    ∀ {l : List Char}, scanAny test l = false → ∀ k, test (l.drop k) = false := by
  intro l
  induction l with
  | nil => intro _ k; simpa using hnil
  | cons c l2 ih =>
    intro h k
    have e : scanAny test (c :: l2) = (test (c :: l2) || scanAny test l2) := rfl
    rw [e] at h
    have h1 : test (c :: l2) = false ∧ scanAny test l2 = false := by simpa using h
    cases k with
    | zero => exact h1.1
    | succ k2 => exact ih h1.2 k2

theorem scanAny_zero_right {test : List Char → Bool} :
    ∀ {a b : List Char}, scanAny test (a ++ b) = false → scanAny test b = false := by
  intro a
  induction a with
  | nil => intro b h; exact h
  | cons c a2 ih =>
    intro b h
    have e : scanAny test ((c :: a2) ++ b)
        = (test (c :: (a2 ++ b)) || scanAny test (a2 ++ b)) := rfl
    rw [e] at h
    have h1 : test (c :: (a2 ++ b)) = false ∧ scanAny test (a2 ++ b) = false := by
      simpa using h
    exact ih h1.2

/-! Congruence past a closing `>`: neither scanner can match across it,
so the text beyond the first `>` after the match start is irrelevant. -/

theorem listSW_gt_congr : ∀ (p : List Char), '>' ∉ p →
    ∀ (a y y2 : List Char), listSW p (a ++ '>' :: y) = listSW p (a ++ '>' :: y2) := by
  intro p
  induction p with
  | nil => intro _ a y y2; rw [listSW_nil, listSW_nil]
  | cons q p2 ih =>
    intro hq a y y2
    cases a with
    | nil =>
      simp only [List.nil_append, listSW]
      simp [show ¬(q = '>') from fun hh => hq (by simp [hh])]
    | cons b a2 =>
      simp only [List.cons_append, listSW, List.append_eq]
      rw [ih (fun hh => hq (List.mem_cons_of_mem _ hh)) a2 y y2]

theorem srcScan_gt_congr : ∀ (w y y2 : List Char),
    srcScan (w ++ '>' :: y) = srcScan (w ++ '>' :: y2) := by
  intro w
  induction w with
  | nil =>
    intro y y2
    show srcScan ('>' :: y) = srcScan ('>' :: y2)
    unfold srcScan
    simp
  | cons c w2 ih =>
    intro y y2
    show srcScan (c :: (w2 ++ '>' :: y)) = srcScan (c :: (w2 ++ '>' :: y2))
    unfold srcScan
    by_cases hc : c = '>'
    · simp [hc]
    · simp only [if_neg hc]
      rw [listSW_gt_congr "src=".data (by decide) w2 y y2, ih y y2]

theorem relScan_gt_congr : ∀ (w y y2 : List Char),
    relScan (w ++ '>' :: y) = relScan (w ++ '>' :: y2) := by
  intro w
  induction w with
  | nil =>
    intro y y2
    show relScan ('>' :: y) = relScan ('>' :: y2)
    unfold relScan
    simp
  | cons c w2 ih =>
    intro y y2
    show relScan (c :: (w2 ++ '>' :: y)) = relScan (c :: (w2 ++ '>' :: y2))
    unfold relScan
    by_cases hc : c = '>'
    · simp [hc]
    · simp only [if_neg hc]
      rw [listSW_gt_congr "rel=\"stylesheet".data (by decide) w2 y y2]
      rw [listSW_gt_congr "rel=\x27stylesheet".data (by decide) w2 y y2]
      rw [ih y y2]

theorem scriptSrcAt_gt_congr (a y y2 : List Char) :
    scriptSrcAt (a ++ '>' :: y) = scriptSrcAt (a ++ '>' :: y2) := by
  unfold scriptSrcAt
  rw [listSW_gt_congr "<script".data (by decide) a y y2]
  by_cases hlen : 7 ≤ a.length
  · rw [List.drop_append_of_le_length hlen, List.drop_append_of_le_length hlen]
    rw [srcScan_gt_congr (a.drop 7) y y2]
  · have hsw : listSW "<script".data (a ++ '>' :: y2) = false := by
      by_cases h2 : listSW "<script".data (a ++ '>' :: y2) = true
      · exfalso
        have h7 : ("<script".data : List Char).length = 7 := by decide
        cases ha : a with
        | nil =>
          rw [ha] at h2
          exact Bool.noConfusion (show (false : Bool) = true from h2)
        | cons c a2 =>
          have hmem := @listSW_straddle '>' y2 a "<script".data h2 (by omega)
            (by rw [ha]; simp)
          exact absurd hmem (by decide)
      · exact Bool.eq_false_iff.mpr h2
    rw [hsw]
    simp

theorem linkStyAt_gt_congr (a y y2 : List Char) :
    linkStyAt (a ++ '>' :: y) = linkStyAt (a ++ '>' :: y2) := by
  unfold linkStyAt
  rw [listSW_gt_congr "<link".data (by decide) a y y2]
  by_cases hlen : 5 ≤ a.length
  · rw [List.drop_append_of_le_length hlen, List.drop_append_of_le_length hlen]
    rw [relScan_gt_congr (a.drop 5) y y2]
  · have hsw : listSW "<link".data (a ++ '>' :: y2) = false := by
      by_cases h2 : listSW "<link".data (a ++ '>' :: y2) = true
      · exfalso
        have h5 : ("<link".data : List Char).length = 5 := by decide
        cases ha : a with
        | nil =>
          rw [ha] at h2
          exact Bool.noConfusion (show (false : Bool) = true from h2)
        | cons c a2 =>
          have hmem := @listSW_straddle '>' y2 a "<link".data h2 (by omega)
            (by rw [ha]; simp)
          exact absurd hmem (by decide)
      · exact Bool.eq_false_iff.mpr h2
    rw [hsw]
    simp

/-! Appending the constant shell epilogue `\n</body></html>` never
creates a scanner match: its text offers no completion. -/

theorem srcScan_append_post : ∀ {w : List Char}, srcScan w = false →
    srcScan (w ++ ('\n' :: (BODYC ++ HTMLC))) = false := by
  intro w
  induction w with
  | nil => intro _; decide
  | cons c w2 ih =>
    intro h
    have e : srcScan (c :: w2)
        = (if c = '>' then false else (listSW "src=".data w2 || srcScan w2)) := rfl
    rw [e] at h
    show srcScan (c :: (w2 ++ ('\n' :: (BODYC ++ HTMLC)))) = false
    have e2 : srcScan (c :: (w2 ++ ('\n' :: (BODYC ++ HTMLC))))
        = (if c = '>' then false
          else (listSW "src=".data (w2 ++ ('\n' :: (BODYC ++ HTMLC)))
            || srcScan (w2 ++ ('\n' :: (BODYC ++ HTMLC))))) := rfl
    rw [e2]
    by_cases hc : c = '>'
    · simp [hc]
    · rw [if_neg hc] at h ⊢
      have h1 : listSW "src=".data w2 = false ∧ srcScan w2 = false := by simpa using h
      have hsw : listSW "src=".data (w2 ++ ('\n' :: (BODYC ++ HTMLC))) = false := by
        by_cases hlen : 4 ≤ w2.length
        · have h4 : ("src=".data : List Char).length = 4 := by decide
          rw [listSW_indep (by omega)]
          exact h1.1
        · by_cases h2 : listSW "src=".data (w2 ++ ('\n' :: (BODYC ++ HTMLC))) = true
          · exfalso
            have h4 : ("src=".data : List Char).length = 4 := by decide
            cases hw : w2 with
            | nil =>
              rw [hw] at h2
              exact Bool.noConfusion (show (false : Bool) = true from h2)
            | cons d w3 =>
              have hmem := @listSW_straddle '\n' (BODYC ++ HTMLC) w2 "src=".data h2
                (by omega) (by rw [hw]; simp)
              exact absurd hmem (by decide)
          · exact Bool.eq_false_iff.mpr h2
      rw [hsw, ih h1.2]
      simp

theorem relScan_append_post : ∀ {w : List Char}, relScan w = false →
    relScan (w ++ ('\n' :: (BODYC ++ HTMLC))) = false := by
  intro w
  induction w with
  | nil => intro _; decide
  | cons c w2 ih =>
    intro h
    have e : relScan (c :: w2)
        = (if c = '>' then false
          else ((listSW "rel=\"stylesheet".data w2 || listSW "rel=\x27stylesheet".data w2)
            || relScan w2)) := rfl
    rw [e] at h
    show relScan (c :: (w2 ++ ('\n' :: (BODYC ++ HTMLC)))) = false
    have e2 : relScan (c :: (w2 ++ ('\n' :: (BODYC ++ HTMLC))))
        = (if c = '>' then false
          else ((listSW "rel=\"stylesheet".data (w2 ++ ('\n' :: (BODYC ++ HTMLC)))
              || listSW "rel=\x27stylesheet".data (w2 ++ ('\n' :: (BODYC ++ HTMLC))))
            || relScan (w2 ++ ('\n' :: (BODYC ++ HTMLC))))) := rfl
    rw [e2]
    by_cases hc : c = '>'
    · simp [hc]
    · rw [if_neg hc] at h ⊢
      have h1 : (listSW "rel=\"stylesheet".data w2 = false
          ∧ listSW "rel=\x27stylesheet".data w2 = false) ∧ relScan w2 = false := by
        simpa using h
      have hsw1 : listSW "rel=\"stylesheet".data (w2 ++ ('\n' :: (BODYC ++ HTMLC))) = false := by
        by_cases hlen : 15 ≤ w2.length
        · have hl : ("rel=\"stylesheet".data : List Char).length = 15 := by decide
          rw [listSW_indep (by omega)]
          exact h1.1.1
        · by_cases h2 : listSW "rel=\"stylesheet".data (w2 ++ ('\n' :: (BODYC ++ HTMLC))) = true
          · exfalso
            have hl : ("rel=\"stylesheet".data : List Char).length = 15 := by decide
            cases hw : w2 with
            | nil =>
              rw [hw] at h2
              exact Bool.noConfusion (show (false : Bool) = true from h2)
            | cons d w3 =>
              have hmem := @listSW_straddle '\n' (BODYC ++ HTMLC) w2 "rel=\"stylesheet".data h2
                (by omega) (by rw [hw]; simp)
              exact absurd hmem (by decide)
          · exact Bool.eq_false_iff.mpr h2
      have hsw2 : listSW "rel=\x27stylesheet".data (w2 ++ ('\n' :: (BODYC ++ HTMLC))) = false := by
        by_cases hlen : 15 ≤ w2.length
        · have hl : ("rel=\x27stylesheet".data : List Char).length = 15 := by decide
          rw [listSW_indep (by omega)]
          exact h1.1.2
        · by_cases h2 : listSW "rel=\x27stylesheet".data (w2 ++ ('\n' :: (BODYC ++ HTMLC))) = true
          · exfalso
            have hl : ("rel=\x27stylesheet".data : List Char).length = 15 := by decide
            cases hw : w2 with
            | nil =>
              rw [hw] at h2
              exact Bool.noConfusion (show (false : Bool) = true from h2)
            | cons d w3 =>
              have hmem := @listSW_straddle '\n' (BODYC ++ HTMLC) w2 "rel=\x27stylesheet".data h2
                (by omega) (by rw [hw]; simp)
              exact absurd hmem (by decide)
          · exact Bool.eq_false_iff.mpr h2
      rw [hsw1, hsw2, ih h1.2]
      simp

theorem scriptSrcAt_append_post {s : List Char} (h : scriptSrcAt s = false) :
    scriptSrcAt (s ++ ('\n' :: (BODYC ++ HTMLC))) = false := by
  by_cases hlen : 7 ≤ s.length
  · unfold scriptSrcAt at h ⊢
    rw [List.drop_append_of_le_length hlen]
    have h7 : ("<script".data : List Char).length = 7 := by decide
    rw [listSW_indep (by omega)]
    by_cases hsw : listSW "<script".data s = true
    · rw [hsw] at h ⊢
      simp only [Bool.true_and] at h ⊢
      exact srcScan_append_post h
    · have h3 : listSW "<script".data s = false := by simpa using hsw
      rw [h3]
      simp
  · unfold scriptSrcAt
    have hsw : listSW "<script".data (s ++ ('\n' :: (BODYC ++ HTMLC))) = false := by
      by_cases h2 : listSW "<script".data (s ++ ('\n' :: (BODYC ++ HTMLC))) = true
      · exfalso
        have h7 : ("<script".data : List Char).length = 7 := by decide
        cases hs : s with
        | nil =>
          rw [hs] at h2
          exact Bool.noConfusion (show (false : Bool) = true from h2)
        | cons c s2 =>
          have hmem := @listSW_straddle '\n' (BODYC ++ HTMLC) s "<script".data h2
            (by omega) (by rw [hs]; simp)
          exact absurd hmem (by decide)
      · exact Bool.eq_false_iff.mpr h2
    rw [hsw]
    simp

theorem linkStyAt_append_post {s : List Char} (h : linkStyAt s = false) :
    linkStyAt (s ++ ('\n' :: (BODYC ++ HTMLC))) = false := by
  by_cases hlen : 5 ≤ s.length
  · unfold linkStyAt at h ⊢
    rw [List.drop_append_of_le_length hlen]
    have h5 : ("<link".data : List Char).length = 5 := by decide
    rw [listSW_indep (by omega)]
    by_cases hsw : listSW "<link".data s = true
    · rw [hsw] at h ⊢
      simp only [Bool.true_and] at h ⊢
      exact relScan_append_post h
    · have h3 : listSW "<link".data s = false := by simpa using hsw
      rw [h3]
      simp
  · unfold linkStyAt
    have hsw : listSW "<link".data (s ++ ('\n' :: (BODYC ++ HTMLC))) = false := by
      by_cases h2 : listSW "<link".data (s ++ ('\n' :: (BODYC ++ HTMLC))) = true
      · exfalso
        have h5 : ("<link".data : List Char).length = 5 := by decide
        cases hs : s with
        | nil =>
          rw [hs] at h2
          exact Bool.noConfusion (show (false : Bool) = true from h2)
        | cons c s2 =>
          have hmem := @listSW_straddle '\n' (BODYC ++ HTMLC) s "<link".data h2
            (by omega) (by rw [hs]; simp)
          exact absurd hmem (by decide)
      · exact Bool.eq_false_iff.mpr h2
    rw [hsw]
    simp

theorem scriptSrcAt_not_sw {l : List Char}
    (h : listSW ('<' :: 's' :: "cript".data) l = false) : scriptSrcAt l = false := by
  unfold scriptSrcAt
  have e : ("<script".data : List Char) = '<' :: 's' :: "cript".data := by decide
  rw [e, h]
  simp

theorem linkStyAt_not_sw {l : List Char}
    (h : listSW ('<' :: 'l' :: "ink".data) l = false) : linkStyAt l = false := by
  unfold linkStyAt
  have e : ("<link".data : List Char) = '<' :: 'l' :: "ink".data := by decide
  rw [e, h]
  simp

/-! Flattened constant segments of the normalizer output, cut at the
symbolic holes (the input text, and the timestamp inside the stamp). -/

def CPRE2A : List Char := "<!doctype html>\n<html><head>\n<meta charset=\x27utf-8\x27>\n<meta name=\x27viewport\x27 content=\x27width=device-width,initial-scale=1\x27>\n<meta charset=\x27utf-8\x27><title>app</title></head><body>\n".data

def CP1OA : List Char := "<!doctype html>\n<html><head>\n<!-- auto-generated via perplexity on ".data

def CZMIDA : List Char := "z -->\n\n<meta charset=\x27utf-8\x27>\n<meta name=\x27viewport\x27 content=\x27width=device-width,initial-scale=1\x27>\n<meta charset=\x27utf-8\x27><title>app</title></head><body>\n".data

def CHMIDB : List Char := "<head>\n<meta charset=\x27utf-8\x27>\n<meta name=\x27viewport\x27 content=\x27width=device-width,initial-scale=1\x27>\n".data

def CHMTAIL : List Char := "\n<meta charset=\x27utf-8\x27>\n<meta name=\x27viewport\x27 content=\x27width=device-width,initial-scale=1\x27>\n".data

def C1OB : List Char := "<head>\n<!-- auto-generated via perplexity on ".data

def C1TAIL : List Char := "\n<!-- auto-generated via perplexity on ".data

def CZB : List Char := "z -->\n\n<meta charset=\x27utf-8\x27>\n<meta name=\x27viewport\x27 content=\x27width=device-width,initial-scale=1\x27>\n".data

def CPOST : List Char := "\n</body></html>".data

theorem flat_t2A (lt : List Char) :
    LB1 ++ (B2 ++ (HEAD_LIT ++ LTAILA lt)) = CPRE2A ++ (lt ++ ('\n' :: (BODYC ++ HTMLC))) := rfl

theorem low_stail_split (ts : List Char) :
    lowerL (STAIL ts)
      = "-- auto-generated via perplexity on ".data ++ (lowerL ts ++ "z -->".data) := by
  have e1 : List.map pyLower "-- Auto-generated via Perplexity on ".data
      = "-- auto-generated via perplexity on ".data := by decide
  have e2 : List.map pyLower "Z -->".data = "z -->".data := by decide
  simp [STAIL, lowerL, e1, e2]
  decide

theorem flat_OA (ts lt : List Char) :
    LB1 ++ (B2 ++ (HD1 ++ (('<' :: '!' :: lowerL (STAIL ts)) ++ ('\n' :: LTAILA lt))))
      = CP1OA ++ (lowerL ts ++ (CZMIDA ++ (lt ++ CPOST))) := by
  rw [low_stail_split]
  have e3 : CP1OA = LB1 ++ (B2 ++ (HD1
      ++ ('<' :: '!' :: "-- auto-generated via perplexity on ".data))) := by decide
  have e4 : CZMIDA = "z -->".data ++ ('\n' :: ('\n' :: (MCHAR ++ (MVIEW ++ (MCHAR2
      ++ (LTITLEB ++ (TITLEC ++ (HEADC ++ BODYO)))))))) := by decide
  have e5 : CPOST = '\n' :: (BODYC ++ HTMLC) := by decide
  rw [e3, e4, e5]
  simp [LTAILA, List.append_assoc]

theorem flat_t2B (lv : List Char) : HEAD_LIT ++ TAILB lv = CHMIDB ++ lv := rfl

theorem flat_OB (ts lv : List Char) :
    HD1 ++ (('<' :: '!' :: lowerL (STAIL ts)) ++ ('\n' :: TAILB lv))
      = C1OB ++ (lowerL ts ++ (CZB ++ lv)) := by
  rw [low_stail_split]
  have e3 : C1OB = HD1 ++ ('<' :: '!' :: "-- auto-generated via perplexity on ".data) := by
    decide
  have e4 : CZB = "z -->".data ++ ('\n' :: ('\n' :: (MCHAR ++ MVIEW))) := by decide
  rw [e3, e4]
  simp [TAILB, List.append_assoc]

/-! The four composite outputs, scanned generically: any per-position
scanner refuted on the input stays refuted on the whole output. -/

theorem scan_false_t2A {p2 : List Char} {test : List Char → Bool}
    (hT : ∀ l, listSW ('<' :: p2) l = false → test l = false)
    (hnil : test [] = false)
    (hpost : ∀ s, test s = false → test (s ++ ('\n' :: (BODYC ++ HTMLC))) = false)
    (hps : scanAny test ('\n' :: (BODYC ++ HTMLC)) = false)
    (hbf : blockFree ('<' :: p2) CPRE2A = true)
    {lt : List Char} (h : scanAny test lt = false) :
    scanAny test (LB1 ++ (B2 ++ (HEAD_LIT ++ LTAILA lt))) = false := by
  rw [flat_t2A]
  rw [scanAny_through_free hT hbf]
  rw [scanAny_through_pos (fun k _ => hpost _ (scanAny_pos_false hnil h k))]
  exact hps

theorem scan_false_OA {p2 : List Char} {test : List Char → Bool}
    (hT : ∀ l, listSW ('<' :: p2) l = false → test l = false)
    (hnil : test [] = false)
    (hpost : ∀ s, test s = false → test (s ++ ('\n' :: (BODYC ++ HTMLC))) = false)
    (hps : scanAny test ('\n' :: (BODYC ++ HTMLC)) = false)
    (hbf1 : blockFree ('<' :: p2) CP1OA = true)
    (hbf2 : blockFree ('<' :: p2) CZMIDA = true)
    {ts lt : List Char} (hts : '<' ∉ ts) (h : scanAny test lt = false) :
    scanAny test (LB1 ++ (B2 ++ (HD1 ++ (('<' :: '!' :: lowerL (STAIL ts))
      ++ ('\n' :: LTAILA lt))))) = false := by
  rw [flat_OA]
  rw [scanAny_through_free hT hbf1]
  rw [scanAny_through_no_head hT (not_mem_lowerL (by decide) hts)]
  rw [scanAny_through_free hT hbf2]
  have e5 : CPOST = '\n' :: (BODYC ++ HTMLC) := by decide
  rw [e5]
  rw [scanAny_through_pos (fun k _ => hpost _ (scanAny_pos_false hnil h k))]
  exact hps

theorem scan_false_t2B {p2 : List Char} {test : List Char → Bool}
    (hT : ∀ l, listSW ('<' :: p2) l = false → test l = false)
    (hnil : test [] = false)
    (hcongr : ∀ a y y2, test (a ++ ('>' :: y)) = test (a ++ ('>' :: y2)))
    (hbf : blockFree ('<' :: p2) CHMIDB = true)
    {lu lv : List Char} (h : scanAny test (lu ++ (HEAD_LIT ++ lv)) = false) :
    scanAny test (lu ++ (HEAD_LIT ++ TAILB lv)) = false := by
  have hv : scanAny test lv = false := scanAny_zero_right (scanAny_zero_right h)
  rw [flat_t2B]
  have hpos : ∀ k, k < lu.length → test (lu.drop k ++ (CHMIDB ++ lv)) = false := by
    intro k hk
    have e1 : CHMIDB ++ lv = "<head".data ++ ('>' :: (CHMTAIL ++ lv)) := rfl
    have e2 : HEAD_LIT ++ lv = "<head".data ++ ('>' :: lv) := rfl
    calc test (lu.drop k ++ (CHMIDB ++ lv))
        = test ((lu.drop k ++ "<head".data) ++ ('>' :: (CHMTAIL ++ lv))) := by
          rw [e1, List.append_assoc]
      _ = test ((lu.drop k ++ "<head".data) ++ ('>' :: lv)) := hcongr _ _ _
      _ = test (lu.drop k ++ (HEAD_LIT ++ lv)) := by
          rw [List.append_assoc, ← e2]
      _ = test ((lu ++ (HEAD_LIT ++ lv)).drop k) := by
          rw [List.drop_append_of_le_length (Nat.le_of_lt hk)]
      _ = false := scanAny_pos_false hnil h k
  rw [scanAny_through_pos hpos]
  rw [scanAny_through_free hT hbf]
  exact hv

theorem scan_false_OB {p2 : List Char} {test : List Char → Bool}
    (hT : ∀ l, listSW ('<' :: p2) l = false → test l = false)
    (hnil : test [] = false)
    (hcongr : ∀ a y y2, test (a ++ ('>' :: y)) = test (a ++ ('>' :: y2)))
    (hbf1 : blockFree ('<' :: p2) C1OB = true)
    (hbf2 : blockFree ('<' :: p2) CZB = true)
    {ts lu lv : List Char} (hts : '<' ∉ ts)
    (h : scanAny test (lu ++ (HEAD_LIT ++ lv)) = false) :
    scanAny test (lu ++ (HD1 ++ (('<' :: '!' :: lowerL (STAIL ts))
      ++ ('\n' :: TAILB lv)))) = false := by
  have hv : scanAny test lv = false := scanAny_zero_right (scanAny_zero_right h)
  rw [flat_OB]
  have hpos : ∀ k, k < lu.length →
      test (lu.drop k ++ (C1OB ++ (lowerL ts ++ (CZB ++ lv)))) = false := by
    intro k hk
    have e1 : C1OB ++ (lowerL ts ++ (CZB ++ lv))
        = "<head".data ++ ('>' :: (C1TAIL ++ (lowerL ts ++ (CZB ++ lv)))) := rfl
    have e2 : HEAD_LIT ++ lv = "<head".data ++ ('>' :: lv) := rfl
    calc test (lu.drop k ++ (C1OB ++ (lowerL ts ++ (CZB ++ lv))))
        = test ((lu.drop k ++ "<head".data)
            ++ ('>' :: (C1TAIL ++ (lowerL ts ++ (CZB ++ lv))))) := by
          rw [e1, List.append_assoc]
      _ = test ((lu.drop k ++ "<head".data) ++ ('>' :: lv)) := hcongr _ _ _
      _ = test (lu.drop k ++ (HEAD_LIT ++ lv)) := by
          rw [List.append_assoc, ← e2]
      _ = test ((lu ++ (HEAD_LIT ++ lv)).drop k) := by
          rw [List.drop_append_of_le_length (Nat.le_of_lt hk)]
      _ = false := scanAny_pos_false hnil h k
  rw [scanAny_through_pos hpos]
  rw [scanAny_through_free hT hbf1]
  rw [scanAny_through_no_head hT (not_mem_lowerL (by decide) hts)]
  rw [scanAny_through_free hT hbf2]
  exact hv

/-! The removal patterns of `enforce_single_file_html` begin with the
validator scanner patterns, so a text the scanners refute is left
untouched by the scrub passes. -/

theorem pyLower_ne_gt {c : Char} (h : c ≠ '>') : pyLower c ≠ '>' := by
  by_cases hr : 65 ≤ c.toNat ∧ c.toNat ≤ 90
  · intro hc
    have ht := toNat_pyLower_upper hr.1 hr.2
    rw [hc] at ht
    have h62 : ('>' : Char).toNat = 62 := by decide
    omega
  · rw [pyLower_eq_self hr]
    exact h

theorem take_all_of_takeWhile {P : Char → Bool} :
    ∀ {l : List Char} {j : Nat}, j ≤ (l.takeWhile P).length →
      ∀ c ∈ l.take j, P c = true := by
  intro l
  induction l with
  | nil => intro j _ c hc; simp at hc
  | cons a l2 ih =>
    intro j hj c hc
    by_cases hP : P a
    · cases j with
      | zero => simp at hc
      | succ j2 =>
        have e : (a :: l2).takeWhile P = a :: l2.takeWhile P := by
          simp [List.takeWhile_cons, hP]
        rw [e] at hj
        simp only [List.length_cons] at hj
        have hc2 : c ∈ a :: l2.take j2 := by simpa using hc
        rcases List.mem_cons.mp hc2 with h | h
        · rw [h]; exact hP
        · exact ih (by omega) c h
    · have e : (a :: l2).takeWhile P = [] := by
        simp [List.takeWhile_cons, hP]
      rw [e] at hj
      simp at hj
      subst hj
      simp at hc

theorem srcScan_false_drop : ∀ {w : List Char} {j : Nat}, srcScan w = false →
    1 ≤ j → (∀ c ∈ w.take j, c ≠ '>') →
    listSW "src=".data (w.drop j) = false := by
  intro w
  induction w with
  | nil =>
    intro j _ _ _
    rw [List.drop_nil]
    decide
  | cons c w2 ih =>
    intro j h hj hch
    cases j with
    | zero => omega
    | succ j2 =>
      have hc : c ≠ '>' := hch c (by simp)
      have e : srcScan (c :: w2)
          = (if c = '>' then false else (listSW "src=".data w2 || srcScan w2)) := rfl
      rw [e, if_neg hc] at h
      have h1 : listSW "src=".data w2 = false ∧ srcScan w2 = false := by simpa using h
      cases j2 with
      | zero => exact h1.1
      | succ j3 =>
        exact ih h1.2 (by omega) (fun d hd => hch d (List.mem_cons_of_mem c hd))

theorem relScan_false_drop : ∀ {w : List Char} {j : Nat}, relScan w = false →
    1 ≤ j → (∀ c ∈ w.take j, c ≠ '>') →
    listSW "rel=\"stylesheet".data (w.drop j) = false
      ∧ listSW "rel=\x27stylesheet".data (w.drop j) = false := by
  intro w
  induction w with
  | nil =>
    intro j _ _ _
    rw [List.drop_nil]
    exact ⟨by decide, by decide⟩
  | cons c w2 ih =>
    intro j h hj hch
    cases j with
    | zero => omega
    | succ j2 =>
      have hc : c ≠ '>' := hch c (by simp)
      have e : relScan (c :: w2)
          = (if c = '>' then false
            else ((listSW "rel=\"stylesheet".data w2 || listSW "rel=\x27stylesheet".data w2)
              || relScan w2)) := rfl
      rw [e, if_neg hc] at h
      have h1 : (listSW "rel=\"stylesheet".data w2 = false
          ∧ listSW "rel=\x27stylesheet".data w2 = false) ∧ relScan w2 = false := by
        simpa using h
      cases j2 with
      | zero => exact h1.1
      | succ j3 =>
        exact ih h1.2 (by omega) (fun d hd => hch d (List.mem_cons_of_mem c hd))

theorem scriptRest_none {x : List Char}
    (h : listSW "src=".data (lowerL x) = false) : scriptRest x = none := by
  unfold scriptRest
  rw [if_neg (by simp [h])]

theorem listSW_append_pat : ∀ {p q l : List Char}, listSW p l = true →
    listSW q (l.drop p.length) = true → listSW (p ++ q) l = true := by
  intro p
  induction p with
  | nil => intro q l _ h2; simpa using h2
  | cons a p2 ih =>
    intro q l h1 h2
    cases l with
    | nil => simp [listSW] at h1
    | cons c l2 =>
      have e : listSW (a :: p2) (c :: l2) = ((a = c : Bool) && listSW p2 l2) := rfl
      rw [e, Bool.and_eq_true] at h1
      have e2 : listSW ((a :: p2) ++ q) (c :: l2)
          = ((a = c : Bool) && listSW (p2 ++ q) l2) := rfl
      rw [e2, Bool.and_eq_true]
      exact ⟨h1.1, ih h1.2 h2⟩

theorem linkRest_none {x : List Char}
    (h1 : listSW "rel=\"stylesheet".data (lowerL x) = false)
    (h2 : listSW "rel=\x27stylesheet".data (lowerL x) = false) :
    linkRest x = none := by
  unfold linkRest
  by_cases g1 : listSW "rel=".data (lowerL x) = true
  · rw [if_pos g1]
    cases hx4 : x.drop 4 with
    | nil => rfl
    | cons q x2 =>
      simp only []
      by_cases gq : (q = '"' || q = '\x27') = true
      · rw [if_pos gq]
        by_cases g3 : listSW "stylesheet".data (lowerL x2) = true
        · exfalso
          have gq2 : q = '"' ∨ q = '\x27' := by simpa using gq
          have hpq : pyLower q = q := by
            rcases gq2 with h | h <;> rw [h] <;> decide
          have hd : lowerL (x.drop 4) = pyLower q :: lowerL x2 := by
            rw [hx4]; rfl
          have hcomm : (lowerL x).drop 4 = lowerL (x.drop 4) := by
            simp [lowerL, List.map_drop]
          have hrest : listSW (q :: "stylesheet".data) ((lowerL x).drop 4) = true := by
            rw [hcomm, hd, hpq]
            have e : listSW (q :: "stylesheet".data) (q :: lowerL x2)
                = ((q = q : Bool) && listSW "stylesheet".data (lowerL x2)) := rfl
            rw [e, g3]
            simp
          have hall := listSW_append_pat g1 hrest
          rcases gq2 with h | h
          · rw [h] at hall
            have e : ("rel=".data ++ ('"' :: "stylesheet".data) : List Char)
                = "rel=\"stylesheet".data := by decide
            rw [e] at hall
            exact absurd hall (by simp [h1])
          · rw [h] at hall
            have e : ("rel=".data ++ ('\x27' :: "stylesheet".data) : List Char)
                = "rel=\x27stylesheet".data := by decide
            rw [e] at hall
            exact absurd hall (by simp [h2])
        · rw [if_neg g3]
      · rw [if_neg gq]
  · rw [if_neg g1]

theorem scriptK_none {r : List Char} (h : srcScan (lowerL r) = false) :
    ∀ k, k ≤ ((r.takeWhile (fun c => c ≠ '>')).length) → scriptK r k = none := by
  intro k
  induction k with
  | zero => intro _; rfl
  | succ k2 ih =>
    intro hk
    have hrest : scriptRest (r.drop (k2 + 1)) = none := by
      apply scriptRest_none
      have hcomm : lowerL (r.drop (k2 + 1)) = (lowerL r).drop (k2 + 1) := by
        simp [lowerL, List.map_drop]
      rw [hcomm]
      apply srcScan_false_drop h (by omega)
      intro d hd
      have hcomm2 : (lowerL r).take (k2 + 1) = lowerL (r.take (k2 + 1)) := by
        simp [lowerL, List.map_take]
      rw [hcomm2] at hd
      rcases List.mem_map.mp hd with ⟨c, hc, hpc⟩
      rw [← hpc]
      apply pyLower_ne_gt
      have hP := take_all_of_takeWhile hk c hc
      simpa using hP
    show scriptK r (k2 + 1) = none
    unfold scriptK
    rw [hrest]
    exact ih (by omega)

theorem linkK_none {r : List Char} (h : relScan (lowerL r) = false) :
    ∀ k, k ≤ ((r.takeWhile (fun c => c ≠ '>')).length) → linkK r k = none := by
  intro k
  induction k with
  | zero => intro _; rfl
  | succ k2 ih =>
    intro hk
    have hch : ∀ d ∈ (lowerL r).take (k2 + 1), d ≠ '>' := by
      intro d hd
      have hcomm2 : (lowerL r).take (k2 + 1) = lowerL (r.take (k2 + 1)) := by
        simp [lowerL, List.map_take]
      rw [hcomm2] at hd
      rcases List.mem_map.mp hd with ⟨c, hc, hpc⟩
      rw [← hpc]
      apply pyLower_ne_gt
      have hP := take_all_of_takeWhile hk c hc
      simpa using hP
    have hrest : linkRest (r.drop (k2 + 1)) = none := by
      have hcomm : lowerL (r.drop (k2 + 1)) = (lowerL r).drop (k2 + 1) := by
        simp [lowerL, List.map_drop]
      have hboth := relScan_false_drop h (by omega) hch
      exact linkRest_none (by rw [hcomm]; exact hboth.1) (by rw [hcomm]; exact hboth.2)
    show linkK r (k2 + 1) = none
    unfold linkK
    rw [hrest]
    exact ih (by omega)

theorem tryScriptAt_none {l : List Char} (h : scriptSrcAt (lowerL l) = false) :
    tryScriptAt l = none := by
  unfold tryScriptAt
  by_cases hsw : listSW "<script".data (lowerL l) = true
  · rw [if_pos hsw]
    have hscan : srcScan ((lowerL l).drop 7) = false := by
      unfold scriptSrcAt at h
      rw [hsw] at h
      simpa using h
    have hcomm : lowerL (l.drop 7) = (lowerL l).drop 7 := by
      simp [lowerL, List.map_drop]
    exact scriptK_none (by rw [hcomm]; exact hscan) _ (le_refl _)
  · rw [if_neg hsw]

theorem tryLinkAt_none {l : List Char} (h : linkStyAt (lowerL l) = false) :
    tryLinkAt l = none := by
  unfold tryLinkAt
  by_cases hsw : listSW "<link".data (lowerL l) = true
  · rw [if_pos hsw]
    have hscan : relScan ((lowerL l).drop 5) = false := by
      unfold linkStyAt at h
      rw [hsw] at h
      simpa using h
    have hcomm : lowerL (l.drop 5) = (lowerL l).drop 5 := by
      simp [lowerL, List.map_drop]
    exact linkK_none (by rw [hcomm]; exact hscan) _ (le_refl _)
  · rw [if_neg hsw]

theorem scrubScriptF_noop2 : ∀ (f : Nat) (l : List Char),
    detectScriptSrc (lowerL l) = false → scrubScriptF f l = l := by
  intro f
  induction f with
  | zero => intro l _; rfl
  | succ f ih =>
    intro l hdet
    cases l with
    | nil => rfl
    | cons c l2 =>
      have e : detectScriptSrc (lowerL (c :: l2))
          = (scriptSrcAt (lowerL (c :: l2)) || detectScriptSrc (lowerL l2)) := rfl
      rw [e] at hdet
      have h1 : scriptSrcAt (lowerL (c :: l2)) = false
          ∧ detectScriptSrc (lowerL l2) = false := by simpa using hdet
      have htry : tryScriptAt (c :: l2) = none := tryScriptAt_none h1.1
      show scrubScriptF (f + 1) (c :: l2) = c :: l2
      unfold scrubScriptF
      rw [htry]
      rw [ih l2 h1.2]

theorem scrubScript_noop2 {l : List Char}
    (h : detectScriptSrc (lowerL l) = false) : scrubScript l = l :=
  scrubScriptF_noop2 l.length l h

theorem scrubLinkF_noop2 : ∀ (f : Nat) (l : List Char),
    detectLinkSty (lowerL l) = false → scrubLinkF f l = l := by
  intro f
  induction f with
  | zero => intro l _; rfl
  | succ f ih =>
    intro l hdet
    cases l with
    | nil => rfl
    | cons c l2 =>
      have e : detectLinkSty (lowerL (c :: l2))
          = (linkStyAt (lowerL (c :: l2)) || detectLinkSty (lowerL l2)) := rfl
      rw [e] at hdet
      have h1 : linkStyAt (lowerL (c :: l2)) = false
          ∧ detectLinkSty (lowerL l2) = false := by simpa using hdet
      have htry : tryLinkAt (c :: l2) = none := tryLinkAt_none h1.1
      show scrubLinkF (f + 1) (c :: l2) = c :: l2
      unfold scrubLinkF
      rw [htry]
      rw [ih l2 h1.2]

theorem scrubLink_noop2 {l : List Char}
    (h : detectLinkSty (lowerL l) = false) : scrubLink l = l :=
  scrubLinkF_noop2 l.length l h

def DT14 : List Char := "<!doctype html".data

def MSG_DOCTYPE : List Char := "Missing <!DOCTYPE html> at top.".data

def msgMissingTag (tag : List Char) : List Char :=
  "Missing required tag: ".data ++ tag ++ ">".data

def MSG_SCRIPT : List Char := "External <script src> found (must be inline).".data

def MSG_LINK : List Char :=
  "External <link rel=stylesheet> found (must be inline).".data

/-- `"; ".join` -/
def joinSemi : List (List Char) → List Char
  | [] => []
  | [x] => x
  | x :: y :: rest => x ++ "; ".data ++ joinSemi (y :: rest)

/-- The accumulated diagnostics of `validate_html`, one per failed check,
in source order (doctype, the three tags, script, stylesheet). -/
def htmlProblems (text : List Char) : List (List Char) :=
  (if listSW DT14 (lowerL text) then [] else [MSG_DOCTYPE])
    ++ (if hasSub "<html".data (lowerL text) then [] else [msgMissingTag "<html".data])
    ++ (if hasSub "<head".data (lowerL text) then [] else [msgMissingTag "<head".data])
    ++ (if hasSub "<body".data (lowerL text) then [] else [msgMissingTag "<body".data])
    ++ (if detectScriptSrc (lowerL text) then [MSG_SCRIPT] else [])
    ++ (if detectLinkSty (lowerL text) then [MSG_LINK] else [])

/-- `validate_html` (generate.py lines 186-199). -/
def validate_html (text : List Char) : Bool × List Char :=
  ((htmlProblems text).isEmpty, joinSemi (htmlProblems text))

theorem joinSemi_ne_nil : ∀ ps : List (List Char), ps ≠ [] →
    (∀ p ∈ ps, p ≠ []) → joinSemi ps ≠ [] := by
  intro ps
  match ps with
  | [] => intro h; exact absurd rfl h
  | [x] =>
    intro _ hall
    simpa [joinSemi] using hall x (by simp)
  | x :: y :: rest =>
    intro _ hall
    have hx : x ≠ [] := hall x (by simp)
    cases hxl : x with
    | nil => exact absurd hxl hx
    | cons a as => simp [joinSemi, hxl]

theorem htmlProblems_all_ne_nil (text : List Char) :
    ∀ p ∈ htmlProblems text, p ≠ [] := by
  intro p hp
  unfold htmlProblems at hp
  simp only [List.mem_append] at hp
  rcases hp with ((((hp | hp) | hp) | hp) | hp) | hp <;>
    [skip; skip; skip; skip; skip; skip] <;>
    (split_ifs at hp <;> simp_all <;>
      simp [MSG_DOCTYPE, MSG_SCRIPT, MSG_LINK, msgMissingTag, hp])

/-- Claim C5: `validate_html` runs every check, accumulates exactly one
diagnostic per failed check in source order joined by `"; "`, succeeds
exactly when every check passes, and then the reason is empty; on any
failure the reason is non-empty. -/
theorem c5_validate_html (text : List Char) :
    ((validate_html text).1 = true ↔
      (listSW DT14 (lowerL text) = true
        ∧ hasSub "<html".data (lowerL text) = true
        ∧ hasSub "<head".data (lowerL text) = true
        ∧ hasSub "<body".data (lowerL text) = true
        ∧ detectScriptSrc (lowerL text) = false
        ∧ detectLinkSty (lowerL text) = false))
    ∧ (validate_html text).2 = joinSemi (htmlProblems text)
    ∧ ((validate_html text).1 = true → (validate_html text).2 = [])
    ∧ ((validate_html text).1 = false → (validate_html text).2 ≠ []) := by
  refine ⟨?_, rfl, ?_, ?_⟩
  · show (htmlProblems text).isEmpty = true ↔ _
    unfold htmlProblems
    split_ifs with h1 h2 h3 h4 h5 h6 <;> simp_all
  · intro h
    have hempty : (htmlProblems text).isEmpty = true := h
    show joinSemi (htmlProblems text) = []
    rw [List.isEmpty_iff.mp hempty]
    rfl
  · intro h
    have hne : htmlProblems text ≠ [] := by
      have : (htmlProblems text).isEmpty = false := h
      simpa [List.isEmpty_iff] using this
    exact joinSemi_ne_nil _ hne (htmlProblems_all_ne_nil text)

/-- Witness for C5: markup missing its head tag fails with the head
diagnostic accumulated alongside the body diagnostic. -/
theorem c5_validate_html_witness :
    (validate_html "<!DOCTYPE html><html>x</html>".data).1 = false
    ∧ (validate_html "<!DOCTYPE html><html>x</html>".data).2 ≠ []
    ∧ (validate_html "<!DOCTYPE html><html>x</html>".data).2
        = "Missing required tag: <head>; Missing required tag: <body>".data := by
  refine ⟨by decide, ?_, by decide⟩
  exact (c5_validate_html "<!DOCTYPE html><html>x</html>".data).2.2.2 (by decide)

/-- Witness for C4 at a typical fenced reply. -/
theorem c4_strip_code_fences_exact_witness :
    strip_code_fences (fence3 ++ ("python".data ++ ("\n".data ++ ("print(1)".data
        ++ ("\n".data ++ fence3))))) = "print(1)".data :=
  c4_strip_code_fences_exact "python".data "\n".data "print(1)".data "\n".data
    (by decide) (by decide) (by decide) (by decide) (by decide) (by decide)


set_option maxRecDepth 10000 in
/-- Shape of the normalizer output when the input has neither a doctype
nor an `<html>` tag: the shell is wrapped around it, the meta block
injected into the shell head and the stamp inserted after `<head>`.
The input may hold inline scripts and non-stylesheet links: the removal
patterns only fire where the validator scanners would. -/
theorem enforce_eq_A {ts t : List Char} (hnl : '\n' ∉ ts)
    (hst : occSub (stampOf ts) t = 0)
    (hdt : occSub DT15 (lowerL t) = 0)
    (hhtml : occSub "<html".data (lowerL t) = 0)
    (hs1 : detectScriptSrc (lowerL t) = false)
    (hs2 : detectLinkSty (lowerL t) = false) :
    enforce_single_file_html ts t
      = B1 ++ (B2 ++ (HD1 ++ (stampOf ts ++ ('\n' :: TAILA t)))) := by
  have c1 : hasSub DT15 (lowerL t) = false := (occSub_eq_zero_iff _ _).mp hdt
  have c2 : hasSub "<html".data (lowerL t) = false := (occSub_eq_zero_iff _ _).mp hhtml
  have hshell : SHELL_PRE ++ t ++ SHELL_POST = (B1 ++ B2) ++ (HEAD_LIT ++ SHTAIL t) := by
    have hpre : SHELL_PRE
        = B1 ++ (B2 ++ (HEAD_LIT ++ (MCHAR2 ++ (TITLEB ++ (TITLEC ++ (HEADC ++ BODYO)))))) := by
      decide
    have hpost : SHELL_POST = '\n' :: (BODYC ++ HTMLC) := by decide
    rw [hpre, hpost]
    simp [SHTAIL, List.append_assoc]
  have c3 : hasSub HEAD_TAG (lowerL ((B1 ++ B2) ++ (HEAD_LIT ++ SHTAIL t))) = true :=
    hasSub_head_low (B1 ++ B2) (SHTAIL t)
  have hrw1 : replaceFirstCI HEAD_LIT META_REPL ((B1 ++ B2) ++ (HEAD_LIT ++ SHTAIL t))
      = (B1 ++ B2) ++ (META_REPL ++ SHTAIL t) :=
    replaceFirstCI_append (show HEAD_LIT = '<' :: "head>".data by decide)
      (by decide) META_REPL (B1 ++ B2) (by decide)
      (show lowerL HEAD_LIT = HEAD_LIT by decide)
  have hmeta : (B1 ++ B2) ++ (META_REPL ++ SHTAIL t)
      = B1 ++ (B2 ++ (HEAD_LIT ++ TAILA t)) := by
    have e : META_REPL = HEAD_LIT ++ ('\n' :: (MCHAR ++ MVIEW)) := by decide
    rw [e]
    simp [SHTAIL, TAILA, List.append_assoc]
  have hsc : detectScriptSrc (lowerL (B1 ++ (B2 ++ (HEAD_LIT ++ TAILA t)))) = false := by
    rw [low_t2A_eq]
    exact scan_false_t2A (fun l h => scriptSrcAt_not_sw h) (by decide)
      (fun s hs => scriptSrcAt_append_post hs) (by decide) (by decide) hs1
  have hlk : detectLinkSty (lowerL (B1 ++ (B2 ++ (HEAD_LIT ++ TAILA t)))) = false := by
    rw [low_t2A_eq]
    exact scan_false_t2A (fun l h => linkStyAt_not_sw h) (by decide)
      (fun s hs => linkStyAt_append_post hs) (by decide) (by decide) hs2
  have hstt2 : hasSub (stampOf ts) (B1 ++ (B2 ++ (HEAD_LIT ++ TAILA t))) = false :=
    (occSub_eq_zero_iff _ _).mp (occ_stamp_t2A hnl hst)
  have hassoc : B1 ++ (B2 ++ (HEAD_LIT ++ TAILA t))
      = (B1 ++ B2) ++ (HEAD_LIT ++ TAILA t) := (List.append_assoc B1 B2 _).symm
  have c5 : hasSub HEAD_TAG (lowerL (B1 ++ (B2 ++ (HEAD_LIT ++ TAILA t)))) = true := by
    rw [hassoc]
    exact hasSub_head_low (B1 ++ B2) (TAILA t)
  have hrw2 : replaceFirstCI HEAD_LIT ("<head>\n".data ++ stampOf ts ++ "\n".data)
        ((B1 ++ B2) ++ (HEAD_LIT ++ TAILA t))
      = (B1 ++ B2) ++ (("<head>\n".data ++ stampOf ts ++ "\n".data) ++ TAILA t) :=
    replaceFirstCI_append (show HEAD_LIT = '<' :: "head>".data by decide)
      (by decide) _ (B1 ++ B2) (by decide)
      (show lowerL HEAD_LIT = HEAD_LIT by decide)
  have hfin : (B1 ++ B2) ++ (("<head>\n".data ++ stampOf ts ++ "\n".data) ++ TAILA t)
      = B1 ++ (B2 ++ (HD1 ++ (stampOf ts ++ ('\n' :: TAILA t)))) := by
    have e1 : ("<head>\n".data : List Char) = HD1 := by decide
    have e2 : ("\n".data : List Char) = ['\n'] := by decide
    rw [e1, e2]
    simp [List.append_assoc]
  unfold enforce_single_file_html
  simp only []
  rw [if_neg (show ¬(hasSub DT15 (lowerL t) = true) by simp [c1])]
  rw [if_neg (show ¬(hasSub "<html".data (lowerL t) = true) by simp [c2])]
  rw [hshell]
  rw [if_pos c3]
  rw [hrw1, hmeta]
  rw [scrubScript_noop2 hsc, scrubLink_noop2 hlk]
  rw [if_neg (show ¬(hasSub (stampOf ts) (B1 ++ (B2 ++ (HEAD_LIT ++ TAILA t))) = true)
    by simp [hstt2])]
  rw [if_pos c5]
  rw [hassoc]
  rw [hrw2, hfin]

set_option maxRecDepth 10000 in
/-- Shape of the normalizer output when the input opens with a doctype
and reaches its first literal `<head>` with no earlier head tag or
stamp and nothing the validator scanners would flag. -/
theorem enforce_eq_B {ts u v : List Char} (hlt : '<' ∉ ts)
    (hstu : occSub (stampOf ts) u = 0) (hstv : occSub (stampOf ts) v = 0)
    (hdt : listSW DT15 (lowerL u) = true)
    (hhu : occSub HEAD_LIT (lowerL u) = 0)
    (hs1 : detectScriptSrc (lowerL (u ++ (HEAD_LIT ++ v))) = false)
    (hs2 : detectLinkSty (lowerL (u ++ (HEAD_LIT ++ v))) = false) :
    enforce_single_file_html ts (u ++ (HEAD_LIT ++ v))
      = u ++ (HD1 ++ (stampOf ts ++ ('\n' :: TAILB v))) := by
  have e3 : List.map pyLower HEAD_LIT = HEAD_LIT := by decide
  have elow : lowerL (u ++ (HEAD_LIT ++ v)) = lowerL u ++ (HEAD_LIT ++ lowerL v) := by
    simp [lowerL, e3]
  have c1 : hasSub DT15 (lowerL (u ++ (HEAD_LIT ++ v))) = true := by
    rw [elow]
    exact hasSub_of_listSW (listSW_append_right hdt (HEAD_LIT ++ lowerL v))
  have c3 : hasSub HEAD_TAG (lowerL (u ++ (HEAD_LIT ++ v))) = true :=
    hasSub_head_low u v
  have hrw1 : replaceFirstCI HEAD_LIT META_REPL (u ++ (HEAD_LIT ++ v))
      = u ++ (META_REPL ++ v) :=
    replaceFirstCI_append (show HEAD_LIT = '<' :: "head>".data by decide)
      (by decide) META_REPL u hhu (show lowerL HEAD_LIT = HEAD_LIT by decide)
  have hmeta : u ++ (META_REPL ++ v) = u ++ (HEAD_LIT ++ TAILB v) := by
    have e : META_REPL = HEAD_LIT ++ ('\n' :: (MCHAR ++ MVIEW)) := by decide
    rw [e]
    simp [TAILB, List.append_assoc]
  have hsc : detectScriptSrc (lowerL (u ++ (HEAD_LIT ++ TAILB v))) = false := by
    rw [low_t2B_eq]
    exact scan_false_t2B (fun l h => scriptSrcAt_not_sw h) (by decide)
      scriptSrcAt_gt_congr (by decide) (by rw [← elow]; exact hs1)
  have hlk : detectLinkSty (lowerL (u ++ (HEAD_LIT ++ TAILB v))) = false := by
    rw [low_t2B_eq]
    exact scan_false_t2B (fun l h => linkStyAt_not_sw h) (by decide)
      linkStyAt_gt_congr (by decide) (by rw [← elow]; exact hs2)
  have hstt2 : hasSub (stampOf ts) (u ++ (HEAD_LIT ++ TAILB v)) = false :=
    (occSub_eq_zero_iff _ _).mp (occ_stamp_t2B hlt hstu hstv)
  have c5 : hasSub HEAD_TAG (lowerL (u ++ (HEAD_LIT ++ TAILB v))) = true :=
    hasSub_head_low u (TAILB v)
  have hrw2 : replaceFirstCI HEAD_LIT ("<head>\n".data ++ stampOf ts ++ "\n".data)
        (u ++ (HEAD_LIT ++ TAILB v))
      = u ++ (("<head>\n".data ++ stampOf ts ++ "\n".data) ++ TAILB v) :=
    replaceFirstCI_append (show HEAD_LIT = '<' :: "head>".data by decide)
      (by decide) _ u hhu (show lowerL HEAD_LIT = HEAD_LIT by decide)
  have hfin : u ++ (("<head>\n".data ++ stampOf ts ++ "\n".data) ++ TAILB v)
      = u ++ (HD1 ++ (stampOf ts ++ ('\n' :: TAILB v))) := by
    have e1 : ("<head>\n".data : List Char) = HD1 := by decide
    have e2 : ("\n".data : List Char) = ['\n'] := by decide
    rw [e1, e2]
    simp [List.append_assoc]
  unfold enforce_single_file_html
  simp only []
  rw [if_pos c1]
  rw [if_pos c3]
  rw [hrw1, hmeta]
  rw [scrubScript_noop2 hsc, scrubLink_noop2 hlk]
  rw [if_neg (show ¬(hasSub (stampOf ts) (u ++ (HEAD_LIT ++ TAILB v)) = true)
    by simp [hstt2])]
  rw [if_pos c5]
  rw [hrw2, hfin]

set_option maxRecDepth 10000 in
/-- C2, amended.  The spec's unconditional claim is false (see
`c2_normalizer_counterexample`): an input that already carries an
`<html>` tag but no head tag gets the stamp prepended BEFORE its
doctype line, and a pre-existing stamp, external script or stylesheet
link in the input can defeat the uniqueness and zero-reference
guarantees.  The amended claim: if the input text does not already
contain the provenance stamp, an external-script occurrence, or a
stylesheet-link occurrence (both in the sense of the validator's own
scanners — inline scripts and non-stylesheet links are allowed), and it
is either a plain fragment (no doctype and no html tag, so the full
shell is wrapped around it) or a document that opens with
`<!doctype html>` and reaches its first literal `<head>` with no
earlier head tag, then `enforce_single_file_html` emits text with
exactly one provenance comment, a doctype at the start
(case-insensitively), and no externally-sourced script or stylesheet
link detectable by the validator's scanners.  Determinism for identical
input holds by construction: the embedding is a pure function of `ts`
and the text. -/
theorem c2_normalizer (ts t : List Char)
    (hlt : '<' ∉ ts) (hnl : '\n' ∉ ts)
    (hst : occSub (stampOf ts) t = 0)
    (hs1 : detectScriptSrc (lowerL t) = false)
    (hs2 : detectLinkSty (lowerL t) = false)
    (hcase :
      (occSub DT15 (lowerL t) = 0 ∧ occSub "<html".data (lowerL t) = 0)
      ∨ (∃ u v, t = u ++ (HEAD_LIT ++ v) ∧ listSW DT15 (lowerL u) = true
          ∧ occSub HEAD_LIT (lowerL u) = 0)) :
    occSub (stampOf ts) (enforce_single_file_html ts t) = 1
    ∧ listSW DT14 (lowerL (enforce_single_file_html ts t)) = true
    ∧ detectScriptSrc (lowerL (enforce_single_file_html ts t)) = false
    ∧ detectLinkSty (lowerL (enforce_single_file_html ts t)) = false := by
  rcases hcase with ⟨hdt, hhtml⟩ | ⟨u, v, rfl, hdt, hhu⟩
  · rw [enforce_eq_A hnl hst hdt hhtml hs1 hs2]
    refine ⟨occ_stamp_OA hlt hnl hst, ?_, ?_, ?_⟩
    · rw [low_OA_eq]
      exact listSW_append_right (by decide : listSW DT14 LB1 = true) _
    · rw [low_OA_eq]
      exact scan_false_OA (fun l h => scriptSrcAt_not_sw h) (by decide)
        (fun s hs => scriptSrcAt_append_post hs) (by decide) (by decide) (by decide)
        hlt hs1
    · rw [low_OA_eq]
      exact scan_false_OA (fun l h => linkStyAt_not_sw h) (by decide)
        (fun s hs => linkStyAt_append_post hs) (by decide) (by decide) (by decide)
        hlt hs2
  · have e3 : List.map pyLower HEAD_LIT = HEAD_LIT := by decide
    have elow : lowerL (u ++ (HEAD_LIT ++ v)) = lowerL u ++ (HEAD_LIT ++ lowerL v) := by
      simp [lowerL, e3]
    have hstu := occSub_zero_left hst
    have hstv := occSub_zero_right (occSub_zero_right hst)
    rw [enforce_eq_B hlt hstu hstv hdt hhu hs1 hs2]
    refine ⟨occ_stamp_OB hlt hstu hstv, ?_, ?_, ?_⟩
    · rw [low_OB_eq]
      have e15 : DT15 = DT14 ++ ">".data := by decide
      rw [e15] at hdt
      exact listSW_append_right (listSW_prefix_of hdt) _
    · rw [low_OB_eq]
      exact scan_false_OB (fun l h => scriptSrcAt_not_sw h) (by decide)
        scriptSrcAt_gt_congr (by decide) (by decide) hlt
        (by rw [← elow]; exact hs1)
    · rw [low_OB_eq]
      exact scan_false_OB (fun l h => linkStyAt_not_sw h) (by decide)
        linkStyAt_gt_congr (by decide) (by decide) hlt
        (by rw [← elow]; exact hs2)

set_option maxRecDepth 10000 in
/-- C2, counterexample to the original wording: the input
`<html>x</html>` already holds an html tag but no head tag, so the
normalizer prepends the stamp before the doctype line and the output
does not begin with a doctype declaration. -/
theorem c2_normalizer_counterexample :
    listSW DT14 (lowerL (enforce_single_file_html "T".data "<html>x</html>".data))
      = false := by
  decide

set_option maxRecDepth 10000 in
/-- Witness for the amended C2 at a fragment that carries an inline
script element, which the scanners allow and the normalizer keeps. -/
theorem c2_normalizer_witness :
    ('<' ∉ "T".data ∧ '\n' ∉ "T".data
      ∧ occSub (stampOf "T".data) "<script>alert(1)</script>".data = 0
      ∧ detectScriptSrc (lowerL "<script>alert(1)</script>".data) = false
      ∧ detectLinkSty (lowerL "<script>alert(1)</script>".data) = false
      ∧ occSub DT15 (lowerL "<script>alert(1)</script>".data) = 0
      ∧ occSub "<html".data (lowerL "<script>alert(1)</script>".data) = 0)
    ∧ occSub (stampOf "T".data)
        (enforce_single_file_html "T".data "<script>alert(1)</script>".data) = 1
    ∧ listSW DT14
        (lowerL (enforce_single_file_html "T".data "<script>alert(1)</script>".data)) = true
    ∧ detectScriptSrc
        (lowerL (enforce_single_file_html "T".data "<script>alert(1)</script>".data)) = false
    ∧ detectLinkSty
        (lowerL (enforce_single_file_html "T".data "<script>alert(1)</script>".data)) = false :=
  ⟨by decide, c2_normalizer "T".data "<script>alert(1)</script>".data (by decide) (by decide)
    (by decide) (by decide) (by decide) (Or.inl ⟨by decide, by decide⟩)⟩

/-- `add_python_stamp` (generate.py lines 180-184), with the timestamp
text as the explicit parameter `ts`. -/
def add_python_stamp (ts : List Char) (py_text : List Char) : List Char :=
  if !(listSW "# Auto-generated via Perplexity".data (py_text.dropWhile isPySpace)) then
    "# Auto-generated via Perplexity on ".data ++ ts ++ "Z".data ++ ('\n' :: py_text)
  else py_text

/-- `build_once` (generate.py lines 240-255): one generation request,
then classification, normalization and validation.  The network reply
is passed in as `raw`; Python validation (`ast.parse`, a standard
library boundary) is the parameter `vp`.  The result mirrors the
source tuple `(ok, err, content, kind, raw)`. -/
def build_once (ts : List Char) (vp : List Char → Bool × List Char)
    (raw : List Char) : Bool × List Char × List Char × Kind × List Char :=
  let ck := extract_html_or_python raw
  match ck.2 with
  | .html =>
    let content := enforce_single_file_html ts ck.1
    let r := validate_html content
    (r.1, r.2, content, Kind.html, raw)
  | .py =>
    let content := add_python_stamp ts ck.1
    let r := vp content
    (r.1, r.2, content, Kind.py, raw)

/-- `attempt_fix` (generate.py lines 257-275): one repair request whose
reply is `fixed`; the expected kind is forced to `target_kind`. -/
def attempt_fix (ts : List Char) (vp : List Char → Bool × List Char)
    (target_kind : Kind) (fixed : List Char) : Bool × List Char × List Char × Kind :=
  let ck := extract_html_or_python fixed
  match target_kind with
  | .html =>
    let content := enforce_single_file_html ts ck.1
    let r := validate_html content
    (r.1, r.2, content, Kind.html)
  | .py =>
    let content := add_python_stamp ts ck.1
    let r := vp content
    (r.1, r.2, content, Kind.py)

/-- The observable outcome of one stage-2 run. -/
structure Stage2Result where
  ok : Bool
  content : List Char
  kind : Kind
  tried_fix : Bool
  calls : Nat

/-- Stage 2 of `main` (generate.py lines 324-333): build once; if the
first validation fails, log, repair exactly once from the raw build
reply, and accept that result as final.  `gen 0` is the build reply and
`gen 1` the repair reply; `calls` counts the generation requests made. -/
def stage2 (ts : List Char) (vp : List Char → Bool × List Char)
    (gen : Nat → List Char) : Stage2Result :=
  let b := build_once ts vp (gen 0)
  if b.1 then
    { ok := true, content := b.2.2.1, kind := b.2.2.2.1, tried_fix := false, calls := 1 }
  else
    let f := attempt_fix ts vp b.2.2.2.1 (gen 1)
    { ok := f.1, content := f.2.2.1, kind := f.2.2.2, tried_fix := true, calls := 2 }

/-- C1: in every stage-2 run the repair request is issued if and only
if the first validation fails; the run makes one generation call when
the first validation passes and two otherwise, so never more than two;
if the first validation fails and the repaired artifact also fails
validation, the run ends as a failure with no further repair; and a
passing first validation ends the run successfully with no repair. -/
theorem c1_stage2_repair (ts : List Char) (vp : List Char → Bool × List Char)
    (gen : Nat → List Char) :
    ((stage2 ts vp gen).tried_fix = true ↔ (build_once ts vp (gen 0)).1 = false)
    ∧ (stage2 ts vp gen).calls = (if (build_once ts vp (gen 0)).1 then 1 else 2)
    ∧ (stage2 ts vp gen).calls ≤ 2
    ∧ ((build_once ts vp (gen 0)).1 = false →
        (stage2 ts vp gen).ok
          = (attempt_fix ts vp (build_once ts vp (gen 0)).2.2.2.1 (gen 1)).1)
    ∧ ((build_once ts vp (gen 0)).1 = true →
        (stage2 ts vp gen).ok = true ∧ (stage2 ts vp gen).tried_fix = false) := by
  by_cases hb : (build_once ts vp (gen 0)).1 = true
  · refine ⟨?_, ?_, ?_, ?_, ?_⟩ <;> simp [stage2, hb]
  · have hb' : (build_once ts vp (gen 0)).1 = false := by
      cases h : (build_once ts vp (gen 0)).1
      · rfl
      · exact absurd h hb
    refine ⟨?_, ?_, ?_, ?_, ?_⟩ <;> simp [stage2, hb']

/-- Witness for C1: a run whose build reply and repair reply both fail
Python validation issues the repair exactly once and ends in failure
after exactly two generation calls. -/
theorem c1_stage2_repair_witness :
    (build_once "T".data (fun _ => (false, [])) ((fun _ => "x=".data) 0)).1 = false
    ∧ (stage2 "T".data (fun _ => (false, [])) (fun _ => "x=".data)).tried_fix = true
    ∧ (stage2 "T".data (fun _ => (false, [])) (fun _ => "x=".data)).calls = 2
    ∧ (stage2 "T".data (fun _ => (false, [])) (fun _ => "x=".data)).ok = false :=
  ⟨by decide,
   ((c1_stage2_repair "T".data (fun _ => (false, [])) (fun _ => "x=".data)).1).mpr
     (by decide),
   by
     rw [(c1_stage2_repair "T".data (fun _ => (false, [])) (fun _ => "x=".data)).2.1]
     decide,
   by
     rw [(c1_stage2_repair "T".data (fun _ => (false, [])) (fun _ => "x=".data)).2.2.2.1
       (by decide)]
     decide⟩

end Gen
